import Mathlib

/-!
Shallow embedding of the lznint codec (src/lib.rs, src/compress.rs,
src/decompress.rs) and verification of its specification claims.

Bytes are modelled as `Nat` (with a `< 256` hypothesis where a theorem
quantifies over arbitrary byte buffers), byte buffers as `List Nat`,
Rust's `u16` values as `Nat < 65536`, and the `Vec<u8>` outputs as
`List Nat`.  Code that can panic (the `assert!`s in `Command::write`
plus arithmetic underflow) is modelled with `Option`: `none` is a panic.
-/

namespace Lznint

/-- Command::MAX_LEN from src/lib.rs. -/
def MAX_LEN : Nat := 0x400

/-- Reference from src/lib.rs: Absolute holds a u16 index, Relative a u8 offset. -/
inductive Reference where
  | absolute (addr : Nat)
  | relative (offset : Nat)
deriving DecidableEq

/-- Command from src/lib.rs. -/
inductive Command where
  | copy (data : List Nat)
  | byteFill (data : Nat) (len : Nat)
  | wordFill (data : Nat) (len : Nat)
  | incrementing (start : Nat) (len : Nat)
  | backreference (src : Reference) (invert : Bool) (len : Nat)
  | stop
deriving DecidableEq

/-- Command::len from src/compress.rs (number of bytes the block expands to). -/
def Command.len : Command → Nat
  | .copy buf => buf.length
  | .byteFill _ len => len
  | .wordFill _ len => len
  | .incrementing _ len => len
  | .backreference _ _ len => len
  | .stop => 0

/-- Command::cost from src/compress.rs (number of encoded bytes the block occupies,
with the tweaked argument costs of this variant). -/
def Command.cost (c : Command) : Nat :=
  let args : Nat :=
    match c with
    | .copy buf => buf.length
    | .byteFill _ _ => 1
    | .wordFill _ _ => 2
    | .incrementing _ _ => 2
    | .backreference (.relative _) _ _ => 3
    | .backreference _ _ _ => 4
    | .stop => 0
  if c.len ≤ 32 then args + 1 else args + 2

/-- The nested `_write` helper of Command::write in src/compress.rs, returning
the bytes pushed onto `dst` (header then payload), or `none` when the
`assert!(len < Command::MAX_LEN)` fails (or `len - 1` underflows).
Since `cmd ≤ 7` and `len - 1 < 32` in the short form, `(cmd << 5) | (len-1)`
equals `cmd * 32 + (len-1)`; in the long form `0xE0 | (cmd << 2) | ((len-1) >> 8)`
equals `0xE0 + cmd * 4 + (len-1) / 256` because the bit ranges are disjoint. -/
def writeRaw (cmd : Nat) (len : Nat) (data : List Nat) : Option (List Nat) :=
  if len = 0 then none
  else
    let l := len - 1
    if l < 32 ∧ cmd ≠ 7 then some ((cmd * 32 + l) :: data)
    else if l < MAX_LEN then some ((0xE0 + cmd * 4 + l / 256) :: (l % 256) :: data)
    else none

/-- Command::write from src/compress.rs: appends the encoding of the block to
`dst`; `none` models a panicking `assert!`. u16 payloads are emitted
little-endian (`to_le_bytes`). -/
def Command.write (c : Command) (dst : List Nat) : Option (List Nat) :=
  match c with
  | .copy data => (writeRaw 0 data.length data).map (fun e => dst ++ e)
  | .byteFill d len => (writeRaw 1 len [d]).map (fun e => dst ++ e)
  | .wordFill w len => (writeRaw 2 len [w % 256, w / 256]).map (fun e => dst ++ e)
  | .incrementing s len => (writeRaw 3 len [s]).map (fun e => dst ++ e)
  | .backreference (.absolute a) invert len =>
    (writeRaw (4 + invert.toNat) len [a % 256, a / 256]).map (fun e => dst ++ e)
  | .backreference (.relative o) invert len =>
    if o = 0 then none            -- assert_ne!(*offset, 0)
    else if invert ∧ 0x300 < len then none  -- assert!(*len <= 0x300)
    else (writeRaw (6 + invert.toNat) len [o]).map (fun e => dst ++ e)
  | .stop => some (dst ++ [0xFF])

/-- Length of the longest common prefix of two lists (the
`zip(...).take_while(|(a, b)| a == b).count()` idiom of src/compress.rs). -/
def matchLen : List Nat → List Nat → Nat
  | x :: xs, y :: ys => if x = y then 1 + matchLen xs ys else 0
  | _, _ => 0

/-- backreference_at from src/compress.rs.  Note that this variant never
reports an inverted match: the `(bool, usize)` result always has `false`
as its first component. -/
def backreference_at (src : List Nat) (i j : Nat) : Bool × Nat :=
  let len := min (matchLen (src.drop i) (src.drop j)) MAX_LEN
  if 0 < len then (false, len) else (false, 0)

/-- Loop body of the relative-region scan of find_best_backreference:
best is a (j, inv, len) triple, updated when the candidate at j is longer,
or equally long, non-inverted while the incumbent is inverted. -/
def relStep (src : List Nat) (i : Nat) (best : Nat × Bool × Nat) (j : Nat) :
    Nat × Bool × Nat :=
  let r := backreference_at src i j
  let len := if r.1 then min r.2 0x300 else r.2
  if best.2.2 < len ∨ (len = best.2.2 ∧ r.1 = false ∧ best.2.1 = true) then
    (j, r.1, len)
  else best

/-- Loop body of the absolute-region scan of find_best_backreference. -/
def absStep (src : List Nat) (i : Nat) (best : Nat × Bool × Nat) (j : Nat) :
    Nat × Bool × Nat :=
  let r := backreference_at src i j
  if best.2.2 < r.2 then (j, r.1, r.2) else best

/-- find_best_backreference from src/compress.rs. -/
def find_best_backreference (src : List Nat) (i : Nat) : Option Command :=
  let farthest := i - min i 255
  let bestRel := (List.range' farthest (i - farthest)).foldl (relStep src i) (0, false, 0)
  let bestAbs := (List.range (min farthest 65536)).foldl (absStep src i) (0, false, 0)
  if bestRel.2.2 = 0 ∧ bestAbs.2.2 = 0 then none
  else if bestAbs.2.2 ≤ bestRel.2.2 then
    some (.backreference (.relative (i - bestRel.1)) bestRel.2.1 bestRel.2.2)
  else
    some (.backreference (.absolute bestAbs.1) bestAbs.2.1 bestAbs.2.2)

/-- The `chunks_exact(2).take_while(chunk == word).count() * 2` computation of
get_candidates: length of the run of 2-byte chunks equal to (lo, hi). -/
def wordRunLen (lo hi : Nat) : List Nat → Nat
  | a :: b :: rest => if a = lo ∧ b = hi then 2 + wordRunLen lo hi rest else 0
  | _ => 0

/-- The `zip(successors(src[i], wrapping_add 1), src[i..]).take_while(eq).count()`
computation of get_candidates: length of the wrapping incrementing run. -/
def incRunLen (s : Nat) : List Nat → Nat
  | [] => 0
  | a :: rest => if a = s then 1 + incRunLen ((s + 1) % 256) rest else 0

/-- The WordFill candidate of get_candidates: `word` is the little-endian
u16 at `src[i..i+2]`, the length is the run of equal 2-byte chunks (plus a
possible partial last word), capped at MAX_LEN. -/
def wordFillCand (src : List Nat) (i : Nat) : Command :=
  let tail := src.drop i
  let lo := tail.getD 0 0
  let hi := tail.getD 1 0
  let len0 := wordRunLen lo hi tail
  -- a word fill can have a partial last word
  let len1 := if tail[len0]? = some lo then len0 + 1 else len0
  Command.wordFill (lo + 256 * hi) (min len1 MAX_LEN)

/-- The ByteFill candidate of get_candidates: data `src[i]`, length the run
of equal bytes from `i`, capped at MAX_LEN. -/
def byteFillCand (src : List Nat) (i : Nat) : Command :=
  let tail := src.drop i
  Command.byteFill (tail.getD 0 0)
    (min (tail.takeWhile (fun x => x = tail.getD 0 0)).length MAX_LEN)

/-- The Incrementing candidate of get_candidates: start `src[i]`, length the
wrapping incrementing run from `i`, capped at MAX_LEN. -/
def incrementingCand (src : List Nat) (i : Nat) : Command :=
  let tail := src.drop i
  Command.incrementing (tail.getD 0 0) (min (incRunLen (tail.getD 0 0) tail) MAX_LEN)

/-- get_candidates from src/compress.rs.  Candidates in source order:
WordFill (when at least 2 bytes remain; alone if it reaches MAX_LEN, the
fast path), ByteFill, Incrementing, then the best backreference if any. -/
def get_candidates (src : List Nat) (i : Nat) : List Command :=
  let base : List Command :=
    [byteFillCand src i, incrementingCand src i] ++ (find_best_backreference src i).toList
  if 2 ≤ src.length - i then
    if (wordFillCand src i).len = MAX_LEN then [wordFillCand src i]
    else wordFillCand src i :: base
  else base

/-- The ratio comparison of find_best: `a.len / a.cost > b.len / b.cost`
decided exactly by cross-multiplication.  The source compares the two
ratios as `f32`; that comparison agrees with the exact rational one,
because candidate costs lie in [2, 6] and lengths are at most 0x400, so
distinct ratios differ by at least 1/36, far above the f32 rounding error
at these magnitudes (and rounding to f32 is monotone). -/
def betterRatio (a b : Command) : Bool :=
  decide (b.len * a.cost < a.len * b.cost)

/-- find_best from src/compress.rs.  The source reverses the candidate list
and takes `max_by` (which returns the last maximum); over the original
order that is a left fold that replaces the incumbent only on a strictly
better ratio, so ties favour the earlier candidate.  The empty case is
unreachable (`get_candidates` is never empty); the source would panic on
`unwrap`. -/
def find_best (src : List Nat) (i : Nat) : Command :=
  match get_candidates src i with
  | [] => Command.stop
  | c :: cs => cs.foldl (fun best x => if betterRatio x best then x else best) c

/-- The main loop of compress from src/compress.rs, with fuel (the loop
advances `i` by at least 1 per iteration, so `src.length + 1` fuel always
suffices).  `none` models a panic. -/
def compressLoop : Nat → List Nat → Nat → List Nat → List Nat → Option (List Nat)
  | 0, _, _, _, _ => none
  | fuel+1, src, i, prevCopy, dst =>
    if i < src.length then
      -- best := find_best(src, i); the new command has to save at least
      -- 3 bytes to be worthwhile over a copy
      if (find_best src i).cost + 3 ≤ (find_best src i).len then
        match (if prevCopy = [] then some dst else Command.write (.copy prevCopy) dst) with
        | none => none
        | some dst1 =>
          match Command.write (find_best src i) dst1 with
          | none => none
          | some dst2 => compressLoop fuel src (i + (find_best src i).len) [] dst2
      else
        compressLoop fuel src (i + 1) (prevCopy ++ [src.getD i 0]) dst
    else
      match (if prevCopy = [] then some dst else Command.write (.copy prevCopy) dst) with
      | none => none
      | some dst1 => Command.write Command.stop dst1

/-- compress from src/compress.rs. -/
def compress (src : List Nat) : Option (List Nat) :=
  compressLoop (src.length + 1) src 0 [] []

/-- DecompressionError from src/decompress.rs. -/
inductive DecompressionError where
  | unexpectedEof
  | windowOutOfRange
deriving DecidableEq

/-- read_byte from src/decompress.rs: pops one byte, advancing the slice. -/
def read_byte : List Nat → Except DecompressionError (Nat × List Nat)
  | [] => .error .unexpectedEof
  | b :: rest => .ok (b, rest)

/-- read_word from src/decompress.rs: two bytes, little-endian. -/
def read_word (src : List Nat) : Except DecompressionError (Nat × List Nat) :=
  match read_byte src with
  | .error e => .error e
  | .ok (lo, s1) =>
    match read_byte s1 with
    | .error e => .error e
    | .ok (hi, s2) => .ok (lo + 256 * hi, s2)

/-- The payload-reading match of read_cmd (the `match cmd` after the header
has been parsed into a command id and a length). -/
def readBody (cmd : Nat) (len : Nat) (s2 : List Nat) :
    Except DecompressionError (Command × List Nat) :=
  if cmd = 0 then
    if s2.length < len then .error .unexpectedEof
    else .ok (.copy (s2.take len), s2.drop len)
  else if cmd = 1 then
    match read_byte s2 with
    | .error e => .error e
    | .ok (d, s3) => .ok (.byteFill d len, s3)
  else if cmd = 2 then
    match read_word s2 with
    | .error e => .error e
    | .ok (w, s3) => .ok (.wordFill w len, s3)
  else if cmd = 3 then
    match read_byte s2 with
    | .error e => .error e
    | .ok (st, s3) => .ok (.incrementing st len, s3)
  else if cmd ≤ 7 then
    if cmd < 6 then
      match read_word s2 with
      | .error e => .error e
      | .ok (a, s3) => .ok (.backreference (.absolute a) (cmd % 2 == 1) len, s3)
    else
      match read_byte s2 with
      | .error e => .error e
      | .ok (o, s3) => .ok (.backreference (.relative o) (cmd % 2 == 1) len, s3)
  else .error .unexpectedEof

/-- read_cmd from src/decompress.rs.  For a byte `b < 256`, `b >> 5 = b / 32`
and `b & 0x1f = b % 32`; in the extended form `len >> 2 = len / 4` and
`(len & 0x3) << 8 | next = (len % 4) * 256 + next`.  The final else branch of
readBody is the `0x8..=0xFF => unreachable!()` arm, which cannot be hit when
every input byte is below 256. -/
def read_cmd (src : List Nat) : Except DecompressionError (Command × List Nat) :=
  match read_byte src with
  | .error e => .error e
  | .ok (b, s1) =>
    if b = 0xFF then .ok (.stop, s1)
    else
      match (if b / 32 = 7 then
               match read_byte s1 with
               | .error e => .error e
               | .ok (n, s2) => .ok (((b % 32) / 4, (b % 32) % 4 * 256 + n), s2)
             else .ok ((b / 32, b % 32), s1) :
             Except DecompressionError ((Nat × Nat) × List Nat)) with
      | .error e => .error e
      | .ok ((cmd, len0), s2) => readBody cmd (len0 + 1) s2

/-- The byte-by-byte copy loop of a backreference in decompress:
`for i in 0..len { dst.push(dst[start + i] ^ mask) }`.  `pos` is the read
position, `n` the number of bytes still to append. -/
def backrefStep (invert : Bool) : Nat → Nat → List Nat → List Nat
  | _, 0, dst => dst
  | pos, n+1, dst =>
    backrefStep invert (pos + 1) n
      (dst ++ [Nat.xor (dst.getD pos 0) (if invert then 0xFF else 0)])

/-- The Backreference arm of decompress: resolve the start position
(with the window checks) and run the byte-by-byte copy loop. -/
def applyBackref (dst : List Nat) (ref : Reference) (invert : Bool) (len : Nat) :
    Except DecompressionError (List Nat) :=
  match (match ref with
         | .absolute i => Except.ok i
         | .relative i =>
           if i ≤ dst.length then Except.ok (dst.length - i)
           else Except.error DecompressionError.windowOutOfRange) with
  | .error e => .error e
  | .ok start =>
    if dst.length ≤ start then .error .windowOutOfRange
    else .ok (backrefStep invert start len dst)

/-- The `repeat(data.to_le_bytes()).flatten().take(len)` sequence of the
WordFill arm: low, high, low, high, ... for `n` bytes. -/
def wordBytes (lo hi : Nat) : Nat → List Nat
  | 0 => []
  | 1 => [lo]
  | n+2 => lo :: hi :: wordBytes lo hi n

/-- The `successors(start, wrapping_add 1).take(len)` sequence of the
Incrementing arm. -/
def incBytes (s : Nat) : Nat → List Nat
  | 0 => []
  | n+1 => s :: incBytes ((s + 1) % 256) n

/-- One loop iteration of decompress applied to a parsed command
(everything except the Stop arm, which exits the loop). -/
def applyCommand (dst : List Nat) : Command → Except DecompressionError (List Nat)
  | .copy data => .ok (dst ++ data)
  | .byteFill d len => .ok (dst ++ List.replicate len d)
  | .wordFill w len => .ok (dst ++ wordBytes (w % 256) (w / 256) len)
  | .incrementing s len => .ok (dst ++ incBytes s len)
  | .backreference ref invert len => applyBackref dst ref invert len
  | .stop => .ok dst

/-- The loop of decompress from src/decompress.rs, with fuel (every
command consumes at least its header byte from the input, so
`src.length + 1` fuel always suffices; running out of fuel is
unreachable). -/
def decompressLoop : Nat → List Nat → List Nat → Except DecompressionError (List Nat)
  | 0, _, _ => .error .unexpectedEof
  | fuel+1, src, dst =>
    match read_cmd src with
    | .error e => .error e
    | .ok (c, rest) =>
      match c with
      | .stop => .ok dst
      | c =>
        match applyCommand dst c with
        | .error e => .error e
        | .ok dst2 => decompressLoop fuel rest dst2

/-- decompress from src/decompress.rs. -/
def decompress (src : List Nat) : Except DecompressionError (List Nat) :=
  decompressLoop (src.length + 1) src []

/-! ### Basic lemmas about the helper functions -/

lemma getD_drop (l : List Nat) (i k : Nat) :
    (l.drop i).getD k 0 = l.getD (i + k) 0 := by
  simp [List.getD_eq_getElem?_getD, List.getElem?_drop]

lemma getD_eq_some (l : List Nat) (k : Nat) (h : k < l.length) :
    l[k]? = some (l.getD k 0) := by
  rw [List.getElem?_eq_getElem h, List.getD_eq_getElem?_getD, List.getElem?_eq_getElem h]
  rfl

lemma take_eq_of_getD (l m : List Nat) (n : Nat) (hn : n ≤ l.length)
    (hm : m.length = n) (h : ∀ k, k < n → l.getD k 0 = m.getD k 0) :
    l.take n = m := by
  apply List.ext_getElem?
  intro k
  rw [List.getElem?_take]
  split
  · rename_i hk
    rw [getD_eq_some l k (lt_of_lt_of_le hk hn), getD_eq_some m k (by omega), h k hk]
  · rename_i hk
    exact (List.getElem?_eq_none (by omega)).symm

lemma matchLen_le_left : ∀ l1 l2 : List Nat, matchLen l1 l2 ≤ l1.length
  | [], _ => by simp [matchLen]
  | _ :: _, [] => by simp [matchLen]
  | x :: xs, y :: ys => by
    rw [matchLen]
    split
    · have := matchLen_le_left xs ys
      simp only [List.length_cons]
      omega
    · simp

lemma matchLen_le_right : ∀ l1 l2 : List Nat, matchLen l1 l2 ≤ l2.length
  | [], _ => by simp [matchLen]
  | _ :: _, [] => by simp [matchLen]
  | x :: xs, y :: ys => by
    rw [matchLen]
    split
    · have := matchLen_le_right xs ys
      simp only [List.length_cons]
      omega
    · simp

lemma matchLen_getD : ∀ (l1 l2 : List Nat) (k : Nat), k < matchLen l1 l2 →
    l1.getD k 0 = l2.getD k 0
  | [], l2, k => by simp [matchLen]
  | _ :: _, [], k => by simp [matchLen]
  | x :: xs, y :: ys, k => by
    rw [matchLen]
    split
    · rename_i hxy
      match k with
      | 0 => intro _; simpa using hxy
      | k+1 =>
        intro hk
        simpa using matchLen_getD xs ys k (by omega)
    · omega

lemma takeWhile_length_le (p : Nat → Bool) : ∀ l : List Nat,
    (l.takeWhile p).length ≤ l.length
  | [] => by simp
  | a :: l => by
    rw [List.takeWhile_cons]
    split
    · simpa using takeWhile_length_le p l
    · simp

lemma takeWhile_getD (p : Nat → Bool) : ∀ (l : List Nat) (k : Nat),
    k < (l.takeWhile p).length → p (l.getD k 0) = true
  | [], k => by simp
  | a :: l, k => by
    rw [List.takeWhile_cons]
    split
    · rename_i ha
      match k with
      | 0 => intro _; simpa using ha
      | k+1 => intro hk; simpa using takeWhile_getD p l k (by simpa using hk)
    · simp

lemma incRunLen_le : ∀ (s : Nat) (l : List Nat), incRunLen s l ≤ l.length
  | _, [] => by simp [incRunLen]
  | s, a :: l => by
    rw [incRunLen]
    split
    · have := incRunLen_le ((s + 1) % 256) l
      simp only [List.length_cons]
      omega
    · simp

lemma incRunLen_getD : ∀ (s : Nat) (l : List Nat) (k : Nat), s < 256 →
    k < incRunLen s l → l.getD k 0 = (s + k) % 256
  | s, [], k => by simp [incRunLen]
  | s, a :: l, k => by
    rw [incRunLen]
    split
    · rename_i ha
      match k with
      | 0 => intro hs _; simp [ha, Nat.mod_eq_of_lt hs]
      | k+1 =>
        intro hs hk
        have := incRunLen_getD ((s + 1) % 256) l k (Nat.mod_lt _ (by omega)) (by omega)
        simp only [List.getD_cons_succ, this, Nat.mod_add_mod]
        congr 1
        omega
    · omega

lemma wordRunLen_le (lo hi : Nat) : ∀ l : List Nat, wordRunLen lo hi l ≤ l.length
  | [] => by simp [wordRunLen]
  | [a] => by simp [wordRunLen]
  | a :: b :: l => by
    rw [wordRunLen]
    split
    · have := wordRunLen_le lo hi l
      simp only [List.length_cons]
      omega
    · simp

lemma wordRunLen_getD (lo hi : Nat) : ∀ (l : List Nat) (k : Nat),
    k < wordRunLen lo hi l → l.getD k 0 = (if k % 2 = 0 then lo else hi)
  | [], k => by simp [wordRunLen]
  | [a], k => by simp [wordRunLen]
  | a :: b :: l, k => by
    rw [wordRunLen]
    split
    · rename_i hab
      match k with
      | 0 => intro _; simp [hab.1]
      | 1 => intro _; simp [hab.2]
      | k+2 =>
        intro hk
        have hrec := wordRunLen_getD lo hi l k (by omega)
        have hmod : (k + 2) % 2 = k % 2 := by omega
        simp only [List.getD_cons_succ, hrec, hmod]
    · omega

lemma wordBytes_length (lo hi : Nat) : ∀ n, (wordBytes lo hi n).length = n
  | 0 => rfl
  | 1 => rfl
  | n+2 => by
    rw [wordBytes]
    simp [wordBytes_length lo hi n]

lemma wordBytes_getD (lo hi : Nat) : ∀ (n k : Nat), k < n →
    (wordBytes lo hi n).getD k 0 = (if k % 2 = 0 then lo else hi)
  | 0, k => by omega
  | 1, k => by
    intro hk
    interval_cases k
    simp [wordBytes]
  | n+2, k => by
    rw [wordBytes]
    match k with
    | 0 => intro _; simp
    | 1 => intro _; simp
    | k+2 =>
      intro hk
      have hrec := wordBytes_getD lo hi n k (by omega)
      have hmod : (k + 2) % 2 = k % 2 := by omega
      simp only [List.getD_cons_succ, hrec, hmod]

lemma incBytes_length : ∀ (s n : Nat), (incBytes s n).length = n
  | _, 0 => rfl
  | s, n+1 => by
    rw [incBytes]
    simp [incBytes_length ((s + 1) % 256) n]

lemma incBytes_getD : ∀ (s n k : Nat), s < 256 → k < n →
    (incBytes s n).getD k 0 = (s + k) % 256
  | s, 0, k => by omega
  | s, n+1, k => by
    rw [incBytes]
    match k with
    | 0 => intro hs _; simp [Nat.mod_eq_of_lt hs]
    | k+1 =>
      intro hs hk
      have := incBytes_getD ((s + 1) % 256) n k (Nat.mod_lt _ (by omega)) (by omega)
      simp only [List.getD_cons_succ, this, Nat.mod_add_mod]
      congr 1
      omega

/-! ### The backreference search -/

lemma backreference_at_eq (src : List Nat) (i j : Nat) :
    backreference_at src i j =
      (false, min (matchLen (src.drop i) (src.drop j)) MAX_LEN) := by
  simp only [backreference_at]
  split
  · rfl
  · rename_i h
    simp only [not_lt, Nat.le_zero] at h
    rw [h]

lemma relStep_eq (src : List Nat) (i : Nat) (best : Nat × Bool × Nat) (j : Nat)
    (hb : best.2.1 = false) :
    relStep src i best j =
      if best.2.2 < min (matchLen (src.drop i) (src.drop j)) MAX_LEN then
        (j, false, min (matchLen (src.drop i) (src.drop j)) MAX_LEN)
      else best := by
  simp only [relStep, backreference_at_eq, hb]
  simp

lemma absStep_eq (src : List Nat) (i : Nat) (best : Nat × Bool × Nat) (j : Nat) :
    absStep src i best j =
      if best.2.2 < min (matchLen (src.drop i) (src.drop j)) MAX_LEN then
        (j, false, min (matchLen (src.drop i) (src.drop j)) MAX_LEN)
      else best := by
  simp only [absStep, backreference_at_eq]

lemma relFold_inv (src : List Nat) (i : Nat) : ∀ (js : List Nat) (b : Nat × Bool × Nat),
    b.2.1 = false →
    (js.foldl (relStep src i) b = b ∨
     ∃ j ∈ js, js.foldl (relStep src i) b =
         (j, false, min (matchLen (src.drop i) (src.drop j)) MAX_LEN) ∧
       0 < min (matchLen (src.drop i) (src.drop j)) MAX_LEN)
  | [], b => fun _ => Or.inl rfl
  | j :: js, b => fun hb => by
    rw [List.foldl_cons, relStep_eq src i b j hb]
    split
    · rename_i hlt
      rcases relFold_inv src i js (j, false, _) rfl with h | ⟨j1, hj1, heq, hpos⟩
      · right
        exact ⟨j, by simp, h, by omega⟩
      · right
        exact ⟨j1, by simp [hj1], heq, hpos⟩
    · rcases relFold_inv src i js b hb with h | ⟨j1, hj1, heq, hpos⟩
      · left; exact h
      · right; exact ⟨j1, by simp [hj1], heq, hpos⟩

lemma absFold_inv (src : List Nat) (i : Nat) : ∀ (js : List Nat) (b : Nat × Bool × Nat),
    (js.foldl (absStep src i) b = b ∨
     ∃ j ∈ js, js.foldl (absStep src i) b =
         (j, false, min (matchLen (src.drop i) (src.drop j)) MAX_LEN) ∧
       0 < min (matchLen (src.drop i) (src.drop j)) MAX_LEN)
  | [], b => Or.inl rfl
  | j :: js, b => by
    rw [List.foldl_cons, absStep_eq src i b j]
    split
    · rename_i hlt
      rcases absFold_inv src i js (j, false, _) with h | ⟨j1, hj1, heq, hpos⟩
      · right
        exact ⟨j, by simp, h, by omega⟩
      · right
        exact ⟨j1, by simp [hj1], heq, hpos⟩
    · rcases absFold_inv src i js b with h | ⟨j1, hj1, heq, hpos⟩
      · left; exact h
      · right; exact ⟨j1, by simp [hj1], heq, hpos⟩

/-- Characterization of find_best_backreference: it returns none, or a
non-inverted relative backreference at distance `i - j` to some scanned
position `j` of the relative window whose length is exactly the (capped)
match length at `j`, or a non-inverted absolute backreference likewise. -/
lemma find_best_backreference_spec (src : List Nat) (i : Nat) :
    find_best_backreference src i = none ∨
    (∃ j, i - min i 255 ≤ j ∧ j < i ∧
      find_best_backreference src i =
        some (.backreference (.relative (i - j)) false
          (min (matchLen (src.drop i) (src.drop j)) MAX_LEN)) ∧
      0 < min (matchLen (src.drop i) (src.drop j)) MAX_LEN) ∨
    (∃ j, j < i - min i 255 ∧ j < 65536 ∧
      find_best_backreference src i =
        some (.backreference (.absolute j) false
          (min (matchLen (src.drop i) (src.drop j)) MAX_LEN)) ∧
      0 < min (matchLen (src.drop i) (src.drop j)) MAX_LEN) := by
  have hrelcases := relFold_inv src i
    (List.range' (i - min i 255) (i - (i - min i 255))) (0, false, 0) rfl
  have habscases := absFold_inv src i
    (List.range (min (i - min i 255) 65536)) (0, false, 0)
  rcases hrelcases with hrel | ⟨j, hj, hrel, hrelpos⟩ <;>
    rcases habscases with habs | ⟨j1, hj1, habs, habspos⟩
  · left
    simp only [find_best_backreference]
    rw [hrel, habs]
    simp
  · right; right
    rw [List.mem_range] at hj1
    refine ⟨j1, by omega, by omega, ?_, habspos⟩
    simp only [find_best_backreference]
    rw [hrel, habs]
    rw [if_neg (by simp; omega), if_neg (by simp; omega)]
  · right; left
    rw [List.mem_range'_1] at hj
    refine ⟨j, by omega, by omega, ?_, hrelpos⟩
    simp only [find_best_backreference]
    rw [hrel, habs]
    rw [if_neg (by simp; omega), if_pos (by simp)]
  · rw [List.mem_range'_1] at hj
    rw [List.mem_range] at hj1
    by_cases hcmp : min (matchLen (src.drop i) (src.drop j1)) MAX_LEN ≤
        min (matchLen (src.drop i) (src.drop j)) MAX_LEN
    · right; left
      refine ⟨j, by omega, by omega, ?_, hrelpos⟩
      simp only [find_best_backreference]
      rw [hrel, habs]
      rw [if_neg (by simp; omega), if_pos (by simpa using hcmp)]
    · right; right
      refine ⟨j1, by omega, by omega, ?_, habspos⟩
      simp only [find_best_backreference]
      rw [hrel, habs]
      rw [if_neg (by simp; omega), if_neg (by simpa using hcmp)]

/-! ### The candidate set -/

lemma drop_cons (src : List Nat) (i : Nat) (h : i < src.length) :
    src.drop i = src.getD i 0 :: src.drop (i + 1) := by
  rw [List.drop_eq_getElem_cons h, List.getD_eq_getElem src 0 h]

lemma getD_take (src : List Nat) (m k : Nat) (h : k < m) :
    (src.take m).getD k 0 = src.getD k 0 := by
  simp [List.getD_eq_getElem?_getD, List.getElem?_take, h]

lemma take_succ_getD (src : List Nat) (m : Nat) (h : m < src.length) :
    src.take (m + 1) = src.take m ++ [src.getD m 0] := by
  rw [List.take_succ, List.getElem?_eq_getElem h, List.getD_eq_getElem src 0 h]
  rfl

lemma length_take_of_le (src : List Nat) (m : Nat) (h : m ≤ src.length) :
    (src.take m).length = m := by
  simp [List.length_take]
  omega

lemma get_candidates_ne_nil (src : List Nat) (i : Nat) : get_candidates src i ≠ [] := by
  simp only [get_candidates]
  split
  · split <;> simp
  · simp

lemma foldl_choose_mem (f : Command → Command → Bool) :
    ∀ (cs : List Command) (c : Command),
    cs.foldl (fun best x => if f x best then x else best) c ∈ c :: cs
  | [], c => by simp
  | d :: cs, c => by
    rw [List.foldl_cons]
    have h := foldl_choose_mem f cs (if f d c then d else c)
    rcases List.mem_cons.mp h with h1 | h1
    · rw [h1]
      split
      · simp
      · simp
    · simp [h1]

lemma find_best_mem (src : List Nat) (i : Nat) :
    find_best src i ∈ get_candidates src i := by
  unfold find_best
  rcases hc : get_candidates src i with _ | ⟨c, cs⟩
  · exact absurd hc (get_candidates_ne_nil src i)
  · exact foldl_choose_mem betterRatio cs c

lemma get_candidates_mem_cases (src : List Nat) (i : Nat) (c : Command)
    (hc : c ∈ get_candidates src i) :
    (c = wordFillCand src i ∧ 2 ≤ src.length - i) ∨
    c = byteFillCand src i ∨ c = incrementingCand src i ∨
    find_best_backreference src i = some c := by
  simp only [get_candidates] at hc
  split at hc
  · rename_i h2
    split at hc
    · simp at hc
      left; exact ⟨hc, h2⟩
    · rcases List.mem_cons.mp hc with h | h
      · left; exact ⟨h, h2⟩
      · simp only [List.cons_append, List.mem_cons, List.nil_append] at h
        rcases h with h | h | h
        · right; left; exact h
        · right; right; left; exact h
        · right; right; right
          rw [Option.mem_toList, Option.mem_def] at h
          exact h
  · simp only [List.cons_append, List.mem_cons, List.nil_append] at hc
    rcases hc with h | h | h
    · right; left; exact h
    · right; right; left; exact h
    · right; right; right
      rw [Option.mem_toList, Option.mem_def] at h
      exact h

/-! ### Soundness of the candidates against the decoder -/

/-- Well-formedness of the numeric payload fields of a block: the bounds
guaranteed by the Rust types (u8 data bytes, u16 words and indices). -/
def Command.wf : Command → Prop
  | .copy _ => True
  | .byteFill d _ => d < 256
  | .wordFill w _ => w < 65536
  | .incrementing s _ => s < 256
  | .backreference (.absolute a) _ _ => a < 65536
  | .backreference (.relative o) _ _ => o < 256
  | .stop => True

lemma byte_lt_256 (src : List Nat) (hb : ∀ b ∈ src, b < 256) (k : Nat)
    (hk : k < src.length) : src.getD k 0 < 256 := by
  apply hb
  rw [List.getD_eq_getElem src 0 hk]
  exact List.getElem_mem hk

lemma replicate_getD (n k : Nat) (d : Nat) (h : k < n) :
    (List.replicate n d).getD k 0 = d := by
  rw [List.getD_eq_getElem _ 0 (by simpa using h)]
  exact List.getElem_replicate d _

lemma getD_of_getElem? (l : List Nat) (n a : Nat) (h : l[n]? = some a) :
    l.getD n 0 = a := by
  simp [List.getD_eq_getElem?_getD, h]

lemma byteFillCand_sound (src : List Nat) (i : Nat) (hi : i < src.length)
    (hb : ∀ b ∈ src, b < 256) :
    1 ≤ (byteFillCand src i).len ∧ i + (byteFillCand src i).len ≤ src.length ∧
    (byteFillCand src i).wf ∧
    applyCommand (src.take i) (byteFillCand src i) =
      .ok (src.take (i + (byteFillCand src i).len)) := by
  simp only [byteFillCand]
  set tail := src.drop i with htail
  set d := tail.getD 0 0 with hd
  set n := min (tail.takeWhile (fun x => x = d)).length MAX_LEN with hn
  have htl : tail.length = src.length - i := by simp [htail]
  have hcons : tail = d :: src.drop (i + 1) := by
    rw [htail, drop_cons src i hi, hd, htail, drop_cons src i hi]
    simp
  have hrun1 : 1 ≤ (tail.takeWhile (fun x => x = d)).length := by
    rw [hcons, List.takeWhile_cons]
    simp
  have hrunle : (tail.takeWhile (fun x => x = d)).length ≤ tail.length :=
    takeWhile_length_le _ tail
  have h1 : 1 ≤ n := by
    rw [hn]
    simp only [MAX_LEN]
    omega
  have h2 : i + n ≤ src.length := by
    have : n ≤ tail.length := by rw [hn]; omega
    omega
  refine ⟨h1, h2, ?_, ?_⟩
  · show d < 256
    rw [hd, htail, getD_drop, Nat.add_zero]
    exact byte_lt_256 src hb i hi
  · simp only [applyCommand, Command.len]
    congr 1
    have hrepl : tail.take n = List.replicate n d := by
      apply take_eq_of_getD
      · omega
      · simp
      · intro k hk
        rw [replicate_getD n k d hk]
        have := takeWhile_getD (fun x => x = d) tail k (by omega)
        simpa using this
    rw [List.take_add, ← htail, hrepl]

lemma incrementingCand_sound (src : List Nat) (i : Nat) (hi : i < src.length)
    (hb : ∀ b ∈ src, b < 256) :
    1 ≤ (incrementingCand src i).len ∧ i + (incrementingCand src i).len ≤ src.length ∧
    (incrementingCand src i).wf ∧
    applyCommand (src.take i) (incrementingCand src i) =
      .ok (src.take (i + (incrementingCand src i).len)) := by
  simp only [incrementingCand]
  set tail := src.drop i with htail
  set s := tail.getD 0 0 with hs
  set n := min (incRunLen s tail) MAX_LEN with hn
  have htl : tail.length = src.length - i := by simp [htail]
  have hslt : s < 256 := by
    rw [hs, htail, getD_drop, Nat.add_zero]
    exact byte_lt_256 src hb i hi
  have hcons : tail = s :: src.drop (i + 1) := by
    rw [htail, drop_cons src i hi, hs, htail, drop_cons src i hi]
    simp
  have hrun1 : 1 ≤ incRunLen s tail := by
    rw [hcons, incRunLen]
    simp
  have hrunle : incRunLen s tail ≤ tail.length := incRunLen_le s tail
  have h1 : 1 ≤ n := by
    rw [hn]
    simp only [MAX_LEN]
    omega
  have h2 : i + n ≤ src.length := by
    have : n ≤ tail.length := by rw [hn]; omega
    omega
  refine ⟨h1, h2, hslt, ?_⟩
  simp only [applyCommand, Command.len]
  congr 1
  have hbytes : tail.take n = incBytes s n := by
    apply take_eq_of_getD
    · omega
    · exact incBytes_length s n
    · intro k hk
      rw [incBytes_getD s n k hslt hk, incRunLen_getD s tail k hslt (by omega)]
  rw [List.take_add, ← htail, hbytes]

lemma wordRunLen_even (lo hi : Nat) : ∀ l : List Nat, wordRunLen lo hi l % 2 = 0
  | [] => by simp [wordRunLen]
  | [a] => by simp [wordRunLen]
  | a :: b :: l => by
    rw [wordRunLen]
    split
    · have := wordRunLen_even lo hi l
      omega
    · simp

lemma wordFillCand_sound (src : List Nat) (i : Nat) (hi2 : 2 ≤ src.length - i)
    (hb : ∀ b ∈ src, b < 256) :
    1 ≤ (wordFillCand src i).len ∧ i + (wordFillCand src i).len ≤ src.length ∧
    (wordFillCand src i).wf ∧
    applyCommand (src.take i) (wordFillCand src i) =
      .ok (src.take (i + (wordFillCand src i).len)) := by
  have hi : i < src.length := by omega
  have hi1 : i + 1 < src.length := by omega
  have htl : (src.drop i).length = src.length - i := by simp
  obtain ⟨lo, hlo⟩ : ∃ lo, (src.drop i).getD 0 0 = lo := ⟨_, rfl⟩
  obtain ⟨hi', hhi⟩ : ∃ h, (src.drop i).getD 1 0 = h := ⟨_, rfl⟩
  obtain ⟨len0, hlen0⟩ : ∃ n, wordRunLen lo hi' (src.drop i) = n := ⟨_, rfl⟩
  obtain ⟨len1, hlen1⟩ :
      ∃ m, (if (src.drop i)[len0]? = some lo then len0 + 1 else len0) = m := ⟨_, rfl⟩
  have hcand : wordFillCand src i = Command.wordFill (lo + 256 * hi') (min len1 MAX_LEN) := by
    simp only [wordFillCand, hlo, hhi, hlen0, hlen1]
  have hML : MAX_LEN = 1024 := rfl
  have hloeq : lo = src.getD i 0 := by rw [← hlo, getD_drop, Nat.add_zero]
  have hhieq : hi' = src.getD (i + 1) 0 := by rw [← hhi, getD_drop]
  have hlolt : lo < 256 := by rw [hloeq]; exact byte_lt_256 src hb i hi
  have hhilt : hi' < 256 := by rw [hhieq]; exact byte_lt_256 src hb (i + 1) hi1
  have hcons : src.drop i = lo :: hi' :: src.drop (i + 2) := by
    rw [drop_cons src i hi, drop_cons src (i + 1) hi1, ← hloeq, ← hhieq]
  have hlen02 : 2 ≤ len0 := by
    rw [← hlen0, hcons, wordRunLen, if_pos ⟨rfl, rfl⟩]
    omega
  have hlen0le : len0 ≤ (src.drop i).length := hlen0 ▸ wordRunLen_le lo hi' (src.drop i)
  have hlen1ge : len0 ≤ len1 := by
    rw [← hlen1]
    split <;> omega
  have hlen1ub : len1 ≤ len0 + 1 := by
    rw [← hlen1]
    split <;> omega
  have hlen1le : len1 ≤ (src.drop i).length := by
    rw [← hlen1]
    split
    · rename_i h
      have := (List.getElem?_eq_some.mp h).1
      omega
    · exact hlen0le
  rw [hcand]
  have h1 : 1 ≤ Command.len (Command.wordFill (lo + 256 * hi') (min len1 MAX_LEN)) := by
    simp only [Command.len]
    omega
  have h2 : i + Command.len (Command.wordFill (lo + 256 * hi') (min len1 MAX_LEN))
      ≤ src.length := by
    simp only [Command.len]
    omega
  refine ⟨h1, h2, by show lo + 256 * hi' < 65536; omega, ?_⟩
  simp only [applyCommand, Command.len]
  congr 1
  have hmod : (lo + 256 * hi') % 256 = lo := by omega
  have hdiv : (lo + 256 * hi') / 256 = hi' := by omega
  rw [hmod, hdiv]
  have hbytes : (src.drop i).take (min len1 MAX_LEN) = wordBytes lo hi' (min len1 MAX_LEN) := by
    apply take_eq_of_getD
    · omega
    · exact wordBytes_length lo hi' _
    · intro k hk
      rw [wordBytes_getD lo hi' _ k hk]
      rcases Nat.lt_or_ge k len0 with hklt | hkge
      · exact wordRunLen_getD lo hi' (src.drop i) k (by omega)
      · have hkeq : k = len0 := by omega
        have heven := wordRunLen_even lo hi' (src.drop i)
        rw [hlen0] at heven
        rw [if_pos (by omega), hkeq]
        have hsome : (src.drop i)[len0]? = some lo := by
          by_contra hns
          rw [if_neg hns] at hlen1
          omega
        exact getD_of_getElem? (src.drop i) len0 lo hsome
  rw [List.take_add, hbytes]

/-- The byte-by-byte backreference copy reproduces the source slice
`src[i .. i+n)` when every byte of it matches the byte `o = i - j`
positions earlier, even when the copy overlaps its own output. -/
lemma backrefStep_copy (src : List Nat) (i j : Nat) (hj : j < i) :
    ∀ (n t : Nat), i + t + n ≤ src.length →
    (∀ k, k < t + n → src.getD (i + k) 0 = src.getD (j + k) 0) →
    backrefStep false (j + t) n (src.take (i + t)) = src.take (i + t + n)
  | 0, t => by
    intro _ _
    rfl
  | n+1, t => by
    intro hle hm
    rw [backrefStep]
    have hrd : (src.take (i + t)).getD (j + t) 0 = src.getD (j + t) 0 :=
      getD_take src (i + t) (j + t) (by omega)
    have hmt : src.getD (i + t) 0 = src.getD (j + t) 0 := hm t (by omega)
    have hmask : Nat.xor ((src.take (i + t)).getD (j + t) 0)
        (if (false : Bool) then 0xFF else 0) = src.getD (i + t) 0 := by
      rw [hrd, ← hmt]
      show Nat.xor _ 0 = _
      exact Nat.xor_zero _
    have hstep : src.take (i + t) ++ [Nat.xor ((src.take (i + t)).getD (j + t) 0)
        (if (false : Bool) then 0xFF else 0)] = src.take (i + t + 1) := by
      rw [hmask]
      exact (take_succ_getD src (i + t) (by omega)).symm
    rw [hstep]
    have ih := backrefStep_copy src i j hj n (t + 1) (by omega)
      (fun k hk => hm k (by omega))
    have h1 : j + t + 1 = j + (t + 1) := by omega
    have h2 : i + t + 1 = i + (t + 1) := by omega
    rw [h1, h2, ih]
    congr 1
    omega

lemma applyBackref_relative_ok (dst : List Nat) (o len : Nat) (inv : Bool)
    (h1 : o ≤ dst.length) (h2 : dst.length - o < dst.length) :
    applyBackref dst (.relative o) inv len =
      .ok (backrefStep inv (dst.length - o) len dst) := by
  simp only [applyBackref]
  rw [if_pos h1]
  simp only
  rw [if_neg (by omega)]

lemma applyBackref_absolute_ok (dst : List Nat) (a len : Nat) (inv : Bool)
    (h : a < dst.length) :
    applyBackref dst (.absolute a) inv len = .ok (backrefStep inv a len dst) := by
  simp only [applyBackref]
  rw [if_neg (by omega)]

lemma backref_cand_sound (src : List Nat) (i : Nat) (c : Command)
    (h : find_best_backreference src i = some c) (hi : i < src.length) :
    1 ≤ c.len ∧ i + c.len ≤ src.length ∧ c.wf ∧
    applyCommand (src.take i) c = .ok (src.take (i + c.len)) := by
  have hlentake : (src.take i).length = i := length_take_of_le src i (by omega)
  rcases find_best_backreference_spec src i with hn | ⟨j, hj1, hj2, heq, hpos⟩ |
    ⟨j, hj1, hj2, heq, hpos⟩
  · rw [hn] at h
    exact absurd h (by simp)
  · rw [heq] at h
    injection h with h
    subst h
    have hmle : matchLen (src.drop i) (src.drop j) ≤ src.length - i := by
      have := matchLen_le_left (src.drop i) (src.drop j)
      simpa using this
    have hminle : min (matchLen (src.drop i) (src.drop j)) MAX_LEN ≤
        matchLen (src.drop i) (src.drop j) := Nat.min_le_left _ _
    refine ⟨hpos, by simp only [Command.len]; omega, ?_, ?_⟩
    · show i - j < 256
      omega
    · simp only [applyCommand, Command.len]
      rw [applyBackref_relative_ok (src.take i) (i - j) _ false (by omega) (by omega)]
      have hstart : (src.take i).length - (i - j) = j := by omega
      rw [hstart]
      have hcopy := backrefStep_copy src i j hj2
        (min (matchLen (src.drop i) (src.drop j)) MAX_LEN) 0 (by omega)
        (fun k hk => by
          have := matchLen_getD (src.drop i) (src.drop j) k (by omega)
          rw [getD_drop, getD_drop] at this
          exact this)
      simp only [Nat.add_zero, Nat.zero_add] at hcopy
      rw [hcopy]
  · rw [heq] at h
    injection h with h
    subst h
    have hmle : matchLen (src.drop i) (src.drop j) ≤ src.length - i := by
      have := matchLen_le_left (src.drop i) (src.drop j)
      simpa using this
    have hminle : min (matchLen (src.drop i) (src.drop j)) MAX_LEN ≤
        matchLen (src.drop i) (src.drop j) := Nat.min_le_left _ _
    have hji : j < i := by omega
    refine ⟨hpos, by simp only [Command.len]; omega, hj2, ?_⟩
    simp only [applyCommand, Command.len]
    rw [applyBackref_absolute_ok (src.take i) j _ false (by omega)]
    have hcopy := backrefStep_copy src i j hji
      (min (matchLen (src.drop i) (src.drop j)) MAX_LEN) 0 (by omega)
      (fun k hk => by
        have := matchLen_getD (src.drop i) (src.drop j) k (by omega)
        rw [getD_drop, getD_drop] at this
        exact this)
    simp only [Nat.add_zero, Nat.zero_add] at hcopy
    rw [hcopy]

/-- Every candidate produced by get_candidates expands, under the decoder's
application rules and with the already-decoded output `src.take i` as the
window, to exactly the next `len` bytes of the source. -/
lemma candidate_sound (src : List Nat) (i : Nat) (c : Command)
    (hc : c ∈ get_candidates src i) (hi : i < src.length) (hb : ∀ b ∈ src, b < 256) :
    1 ≤ c.len ∧ i + c.len ≤ src.length ∧ c.wf ∧
    applyCommand (src.take i) c = .ok (src.take (i + c.len)) := by
  rcases get_candidates_mem_cases src i c hc with ⟨rfl, h2⟩ | rfl | rfl | hf
  · exact wordFillCand_sound src i h2 hb
  · exact byteFillCand_sound src i hi hb
  · exact incrementingCand_sound src i hi hb
  · exact backref_cand_sound src i c hf hi

lemma find_best_sound (src : List Nat) (i : Nat) (hi : i < src.length)
    (hb : ∀ b ∈ src, b < 256) :
    1 ≤ (find_best src i).len ∧ i + (find_best src i).len ≤ src.length ∧
    (find_best src i).wf ∧
    applyCommand (src.take i) (find_best src i) =
      .ok (src.take (i + (find_best src i).len)) :=
  candidate_sound src i (find_best src i) (find_best_mem src i) hi hb

/-! ### Wire-format roundtrip: written blocks decode back to themselves -/

lemma map_nil_append (o : Option (List Nat)) (dst : List Nat) :
    (o.map (fun e => [] ++ e)).map (fun e => dst ++ e) = o.map (fun e => dst ++ e) := by
  cases o <;> simp

lemma write_eq_map (c : Command) (dst : List Nat) :
    Command.write c dst = (Command.write c []).map (fun e => dst ++ e) := by
  cases c with
  | copy data => simp only [Command.write]; rw [map_nil_append]
  | byteFill d len => simp only [Command.write]; rw [map_nil_append]
  | wordFill w len => simp only [Command.write]; rw [map_nil_append]
  | incrementing s len => simp only [Command.write]; rw [map_nil_append]
  | backreference ref inv len =>
    cases ref with
    | absolute a => simp only [Command.write]; rw [map_nil_append]
    | relative o =>
      simp only [Command.write]
      split
      · rfl
      · split
        · rfl
        · rw [map_nil_append]
  | stop => simp [Command.write]

lemma write_some_shape (c : Command) (dst out : List Nat)
    (h : Command.write c dst = some out) :
    ∃ e, Command.write c [] = some e ∧ out = dst ++ e := by
  rw [write_eq_map] at h
  rcases he : Command.write c [] with _ | e
  · rw [he] at h
    exact absurd h (by simp)
  · rw [he] at h
    simp only [Option.map_some'] at h
    injection h with h
    exact ⟨e, rfl, h.symm⟩

lemma writeRaw_eq (cmd len : Nat) (data : List Nat) :
    writeRaw cmd len data =
      if len = 0 then none
      else if len - 1 < 32 ∧ cmd ≠ 7 then some ((cmd * 32 + (len - 1)) :: data)
      else if len - 1 < MAX_LEN then
        some ((0xE0 + cmd * 4 + (len - 1) / 256) :: ((len - 1) % 256) :: data)
      else none := rfl

lemma writeRaw_cases (cmd len : Nat) (data e : List Nat)
    (h : writeRaw cmd len data = some e) :
    1 ≤ len ∧
    ((len - 1 < 32 ∧ cmd ≠ 7 ∧ e = (cmd * 32 + (len - 1)) :: data) ∨
     (¬(len - 1 < 32 ∧ cmd ≠ 7) ∧ len - 1 < MAX_LEN ∧
       e = (0xE0 + cmd * 4 + (len - 1) / 256) :: ((len - 1) % 256) :: data)) := by
  rw [writeRaw_eq] at h
  split at h
  · exact absurd h (by simp)
  · rename_i hlen
    split at h
    · rename_i hshort
      injection h with h
      exact ⟨by omega, Or.inl ⟨hshort.1, hshort.2, h.symm⟩⟩
    · rename_i hshort
      split at h
      · rename_i hlong
        injection h with h
        exact ⟨by omega, Or.inr ⟨hshort, hlong, h.symm⟩⟩
      · exact absurd h (by simp)

lemma write_nil_pos (c : Command) (e : List Nat) (h : Command.write c [] = some e) :
    0 < e.length := by
  cases c with
  | copy data =>
    simp only [Command.write, Option.map_eq_some'] at h
    obtain ⟨e1, hw, he⟩ := h
    rcases writeRaw_cases _ _ _ _ hw with ⟨_, ⟨_, _, rfl⟩ | ⟨_, _, rfl⟩⟩ <;> simp [← he]
  | byteFill d len =>
    simp only [Command.write, Option.map_eq_some'] at h
    obtain ⟨e1, hw, he⟩ := h
    rcases writeRaw_cases _ _ _ _ hw with ⟨_, ⟨_, _, rfl⟩ | ⟨_, _, rfl⟩⟩ <;> simp [← he]
  | wordFill w len =>
    simp only [Command.write, Option.map_eq_some'] at h
    obtain ⟨e1, hw, he⟩ := h
    rcases writeRaw_cases _ _ _ _ hw with ⟨_, ⟨_, _, rfl⟩ | ⟨_, _, rfl⟩⟩ <;> simp [← he]
  | incrementing st len =>
    simp only [Command.write, Option.map_eq_some'] at h
    obtain ⟨e1, hw, he⟩ := h
    rcases writeRaw_cases _ _ _ _ hw with ⟨_, ⟨_, _, rfl⟩ | ⟨_, _, rfl⟩⟩ <;> simp [← he]
  | backreference ref inv len =>
    cases ref with
    | absolute a =>
      simp only [Command.write, Option.map_eq_some'] at h
      obtain ⟨e1, hw, he⟩ := h
      rcases writeRaw_cases _ _ _ _ hw with ⟨_, ⟨_, _, rfl⟩ | ⟨_, _, rfl⟩⟩ <;> simp [← he]
    | relative o =>
      simp only [Command.write] at h
      split at h
      · exact absurd h (by simp)
      · split at h
        · exact absurd h (by simp)
        · simp only [Option.map_eq_some'] at h
          obtain ⟨e1, hw, he⟩ := h
          rcases writeRaw_cases _ _ _ _ hw with ⟨_, ⟨_, _, rfl⟩ | ⟨_, _, rfl⟩⟩ <;>
            simp [← he]
  | stop =>
    simp only [Command.write] at h
    injection h with h
    simp [← h]

lemma read_cmd_short (c l : Nat) (tail : List Nat) (hc : c ≤ 6) (hl : l < 32) :
    read_cmd ((c * 32 + l) :: tail) = readBody c (l + 1) tail := by
  have h255 : ¬(c * 32 + l = 255) := by omega
  have hdiv : (c * 32 + l) / 32 = c := by omega
  have hmod : (c * 32 + l) % 32 = l := by omega
  have hc7 : ¬(c = 7) := by omega
  simp only [read_cmd, read_byte, hdiv, hmod, if_neg h255, if_neg hc7]

lemma read_cmd_long (c l : Nat) (tail : List Nat) (hc : c ≤ 7) (hl : l < 1024)
    (hcoll : c < 7 ∨ l < 768) :
    read_cmd ((0xE0 + c * 4 + l / 256) :: (l % 256) :: tail) = readBody c (l + 1) tail := by
  have h255 : ¬(0xE0 + c * 4 + l / 256 = 255) := by omega
  have hdiv : (0xE0 + c * 4 + l / 256) / 32 = 7 := by omega
  have hmod : (0xE0 + c * 4 + l / 256) % 32 = c * 4 + l / 256 := by omega
  have hdiv4 : (c * 4 + l / 256) / 4 = c := by omega
  have hmod4 : (c * 4 + l / 256) % 4 * 256 + l % 256 = l := by omega
  simp only [read_cmd, read_byte, hdiv, hmod, if_neg h255, if_pos rfl, hdiv4, hmod4,
    if_true]

lemma writeRaw_decode (c len : Nat) (payload e ext : List Nat)
    (hc : c ≤ 7) (hcoll : c < 7 ∨ len ≤ 0x300)
    (hw : writeRaw c len payload = some e) :
    read_cmd (e ++ ext) = readBody c len (payload ++ ext) := by
  have hML : MAX_LEN = 1024 := rfl
  rcases writeRaw_cases _ _ _ _ hw with ⟨hpos, ⟨h32, hc7, rfl⟩ | ⟨hns, hlt, rfl⟩⟩
  · have h := read_cmd_short c (len - 1) (payload ++ ext) (by omega) h32
    rw [List.cons_append, h, (by omega : len - 1 + 1 = len)]
  · have h := read_cmd_long c (len - 1) (payload ++ ext) hc (by omega) (by omega)
    rw [List.cons_append, List.cons_append, h, (by omega : len - 1 + 1 = len)]

/-- Any block written by the encoder (with well-formed payload fields) is
parsed back as exactly that block by read_cmd, leaving the rest of the
input untouched. -/
lemma write_decode (c : Command) (e : List Nat) (hwf : c.wf)
    (hw : Command.write c [] = some e) (ext : List Nat) :
    read_cmd (e ++ ext) = .ok (c, ext) := by
  cases c with
  | copy data =>
    simp only [Command.write, Option.map_eq_some'] at hw
    obtain ⟨e1, hwr, he⟩ := hw
    rw [List.nil_append] at he
    subst he
    rw [writeRaw_decode 0 data.length data e1 ext (by omega) (by omega) hwr]
    have hbody : readBody 0 data.length (data ++ ext) =
        if (data ++ ext).length < data.length then Except.error .unexpectedEof
        else Except.ok (Command.copy ((data ++ ext).take data.length),
          (data ++ ext).drop data.length) := rfl
    rw [hbody, if_neg (by rw [List.length_append]; omega), List.take_left, List.drop_left]
  | byteFill d len =>
    simp only [Command.write, Option.map_eq_some'] at hw
    obtain ⟨e1, hwr, he⟩ := hw
    rw [List.nil_append] at he
    subst he
    rw [writeRaw_decode 1 len [d] e1 ext (by omega) (by omega) hwr]
    rfl
  | wordFill w len =>
    simp only [Command.write, Option.map_eq_some'] at hw
    obtain ⟨e1, hwr, he⟩ := hw
    rw [List.nil_append] at he
    subst he
    rw [writeRaw_decode 2 len [w % 256, w / 256] e1 ext (by omega) (by omega) hwr]
    show Except.ok (Command.wordFill (w % 256 + 256 * (w / 256)) len, ext) = _
    rw [(by omega : w % 256 + 256 * (w / 256) = w)]
  | incrementing st len =>
    simp only [Command.write, Option.map_eq_some'] at hw
    obtain ⟨e1, hwr, he⟩ := hw
    rw [List.nil_append] at he
    subst he
    rw [writeRaw_decode 3 len [st] e1 ext (by omega) (by omega) hwr]
    rfl
  | backreference ref inv len =>
    cases ref with
    | absolute a =>
      simp only [Command.write, Option.map_eq_some'] at hw
      obtain ⟨e1, hwr, he⟩ := hw
      rw [List.nil_append] at he
      subst he
      cases inv with
      | false =>
        rw [writeRaw_decode 4 len [a % 256, a / 256] e1 ext (by omega) (by omega)
          (by simpa using hwr)]
        show Except.ok (Command.backreference (.absolute (a % 256 + 256 * (a / 256)))
          false len, ext) = _
        rw [(by omega : a % 256 + 256 * (a / 256) = a)]
      | true =>
        rw [writeRaw_decode 5 len [a % 256, a / 256] e1 ext (by omega) (by omega)
          (by simpa using hwr)]
        show Except.ok (Command.backreference (.absolute (a % 256 + 256 * (a / 256)))
          true len, ext) = _
        rw [(by omega : a % 256 + 256 * (a / 256) = a)]
    | relative o =>
      simp only [Command.write] at hw
      split at hw
      · exact absurd hw (by simp)
      · rename_i hinv
        split at hw
        · exact absurd hw (by simp)
        · rename_i hinvlen
          simp only [Option.map_eq_some'] at hw
          obtain ⟨e1, hwr, he⟩ := hw
          rw [List.nil_append] at he
          subst he
          cases inv with
          | false =>
            rw [writeRaw_decode 6 len [o] e1 ext (by omega) (by omega)
              (by simpa using hwr)]
            rfl
          | true =>
            have hlen : len ≤ 0x300 := by
              by_contra hcon
              exact hinvlen ⟨rfl, by omega⟩
            rw [writeRaw_decode 7 len [o] e1 ext (by omega) (by omega)
              (by simpa using hwr)]
            rfl
  | stop =>
    simp only [Command.write] at hw
    injection hw with hw
    rw [List.nil_append] at hw
    subst hw
    simp [read_cmd, read_byte]

/-! ### Properties of the decompression loop -/

lemma write_stop (dst : List Nat) :
    Command.write Command.stop dst = some (dst ++ [0xFF]) := rfl

lemma decompressLoop_stop (f : Nat) (s dst : List Nat) :
    decompressLoop (f + 1) (0xFF :: s) dst = .ok dst := by
  have hr : read_cmd (0xFF :: s) = .ok (.stop, s) := rfl
  rw [decompressLoop, hr]

lemma decompressLoop_cons (f : Nat) (src rest dst dst2 d : List Nat) (c : Command)
    (hc : c ≠ Command.stop)
    (hr : read_cmd src = .ok (c, rest))
    (ha : applyCommand dst c = .ok dst2)
    (hrec : decompressLoop f rest dst2 = .ok d) :
    decompressLoop (f + 1) src dst = .ok d := by
  cases c with
  | stop => exact absurd rfl hc
  | copy data =>
    rw [decompressLoop, hr]
    simp only [ha]
    exact hrec
  | byteFill d2 len =>
    rw [decompressLoop, hr]
    simp only [ha]
    exact hrec
  | wordFill w len =>
    rw [decompressLoop, hr]
    simp only [ha]
    exact hrec
  | incrementing st len =>
    rw [decompressLoop, hr]
    simp only [ha]
    exact hrec
  | backreference ref inv len =>
    rw [decompressLoop, hr]
    simp only [ha]
    exact hrec

lemma decompressLoop_mono : ∀ (f f' : Nat) (src dst d : List Nat), f ≤ f' →
    decompressLoop f src dst = .ok d → decompressLoop f' src dst = .ok d
  | 0, _, src, dst, d => fun _ h => by simp [decompressLoop] at h
  | f+1, 0, src, dst, d => fun hle _ => by omega
  | f+1, f'+1, src, dst, d => fun hle h => by
    rw [decompressLoop] at h ⊢
    rcases hr : read_cmd src with e | ⟨c, rest⟩
    · rw [hr] at h
      simp at h
    · rw [hr] at h
      cases c with
      | stop => exact h
      | copy data => exact decompressLoop_mono f f' rest _ d (by omega) h
      | byteFill d2 len => exact decompressLoop_mono f f' rest _ d (by omega) h
      | wordFill w len => exact decompressLoop_mono f f' rest _ d (by omega) h
      | incrementing st len => exact decompressLoop_mono f f' rest _ d (by omega) h
      | backreference ref inv len =>
        simp only [applyCommand] at h ⊢
        rcases ha : applyBackref dst ref inv len with e2 | dst2
        · rw [ha] at h
          simp at h
        · rw [ha] at h
          exact decompressLoop_mono f f' rest dst2 d (by omega) h

lemma readBody_zero_eq (len : Nat) (t : List Nat) :
    readBody 0 len t =
      if t.length < len then .error .unexpectedEof
      else .ok (.copy (t.take len), t.drop len) := rfl

lemma readBody_one_eq (len : Nat) (t : List Nat) :
    readBody 1 len t =
      (match read_byte t with
       | .error e => .error e
       | .ok (d, s3) => .ok (.byteFill d len, s3)) := rfl

lemma readBody_two_eq (len : Nat) (t : List Nat) :
    readBody 2 len t =
      (match read_word t with
       | .error e => .error e
       | .ok (w, s3) => .ok (.wordFill w len, s3)) := rfl

lemma readBody_three_eq (len : Nat) (t : List Nat) :
    readBody 3 len t =
      (match read_byte t with
       | .error e => .error e
       | .ok (st, s3) => .ok (.incrementing st len, s3)) := rfl

lemma readBody_four_eq (len : Nat) (t : List Nat) :
    readBody 4 len t =
      (match read_word t with
       | .error e => .error e
       | .ok (a, s3) => .ok (.backreference (.absolute a) false len, s3)) := rfl

lemma readBody_five_eq (len : Nat) (t : List Nat) :
    readBody 5 len t =
      (match read_word t with
       | .error e => .error e
       | .ok (a, s3) => .ok (.backreference (.absolute a) true len, s3)) := rfl

lemma readBody_six_eq (len : Nat) (t : List Nat) :
    readBody 6 len t =
      (match read_byte t with
       | .error e => .error e
       | .ok (o, s3) => .ok (.backreference (.relative o) false len, s3)) := rfl

lemma readBody_seven_eq (len : Nat) (t : List Nat) :
    readBody 7 len t =
      (match read_byte t with
       | .error e => .error e
       | .ok (o, s3) => .ok (.backreference (.relative o) true len, s3)) := rfl

lemma readBody_ge_eight_eq (cmd len : Nat) (t : List Nat) (h : 8 ≤ cmd) :
    readBody cmd len t = .error .unexpectedEof := by
  unfold readBody
  rw [if_neg (by omega), if_neg (by omega), if_neg (by omega), if_neg (by omega),
    if_neg (by omega)]

lemma readBody_extend (cmd len : Nat) (s2 ext rest : List Nat) (c : Command)
    (h : readBody cmd len s2 = .ok (c, rest)) :
    readBody cmd len (s2 ++ ext) = .ok (c, rest ++ ext) := by
  by_cases h0 : cmd = 0
  · subst h0
    rw [readBody_zero_eq] at h
    rw [readBody_zero_eq]
    split at h
    · exact absurd h (by simp)
    · rename_i hlen
      injection h with h
      injection h with h1 h2
      subst h1
      subst h2
      rw [if_neg (by rw [List.length_append]; omega),
        List.take_append_of_le_length (by omega), List.drop_append_of_le_length (by omega)]
  by_cases h1 : cmd = 1
  · subst h1
    rw [readBody_one_eq] at h
    rw [readBody_one_eq]
    cases s2 with
    | nil => simp [read_byte] at h
    | cons b s3 =>
      simp only [read_byte, List.cons_append] at h ⊢
      injection h with h
      injection h with hc hrest
      subst hc
      subst hrest
      rfl
  by_cases h2 : cmd = 2
  · subst h2
    rw [readBody_two_eq] at h
    rw [readBody_two_eq]
    match s2 with
    | [] => simp [read_word, read_byte] at h
    | [x] => simp [read_word, read_byte] at h
    | x :: y :: s3 =>
      simp only [read_word, read_byte, List.cons_append] at h ⊢
      injection h with h
      injection h with hc hrest
      subst hc
      subst hrest
      rfl
  by_cases h3 : cmd = 3
  · subst h3
    rw [readBody_three_eq] at h
    rw [readBody_three_eq]
    cases s2 with
    | nil => simp [read_byte] at h
    | cons b s3 =>
      simp only [read_byte, List.cons_append] at h ⊢
      injection h with h
      injection h with hc hrest
      subst hc
      subst hrest
      rfl
  by_cases h4 : cmd = 4
  · subst h4
    rw [readBody_four_eq] at h
    rw [readBody_four_eq]
    match s2 with
    | [] => simp [read_word, read_byte] at h
    | [x] => simp [read_word, read_byte] at h
    | x :: y :: s3 =>
      simp only [read_word, read_byte, List.cons_append] at h ⊢
      injection h with h
      injection h with hc hrest
      subst hc
      subst hrest
      rfl
  by_cases h5 : cmd = 5
  · subst h5
    rw [readBody_five_eq] at h
    rw [readBody_five_eq]
    match s2 with
    | [] => simp [read_word, read_byte] at h
    | [x] => simp [read_word, read_byte] at h
    | x :: y :: s3 =>
      simp only [read_word, read_byte, List.cons_append] at h ⊢
      injection h with h
      injection h with hc hrest
      subst hc
      subst hrest
      rfl
  by_cases h6 : cmd = 6
  · subst h6
    rw [readBody_six_eq] at h
    rw [readBody_six_eq]
    cases s2 with
    | nil => simp [read_byte] at h
    | cons b s3 =>
      simp only [read_byte, List.cons_append] at h ⊢
      injection h with h
      injection h with hc hrest
      subst hc
      subst hrest
      rfl
  by_cases h7 : cmd = 7
  · subst h7
    rw [readBody_seven_eq] at h
    rw [readBody_seven_eq]
    cases s2 with
    | nil => simp [read_byte] at h
    | cons b s3 =>
      simp only [read_byte, List.cons_append] at h ⊢
      injection h with h
      injection h with hc hrest
      subst hc
      subst hrest
      rfl
  rw [readBody_ge_eight_eq cmd len s2 (by omega)] at h
  exact absurd h (by simp)

lemma read_cmd_extend (src ext rest : List Nat) (c : Command)
    (h : read_cmd src = .ok (c, rest)) :
    read_cmd (src ++ ext) = .ok (c, rest ++ ext) := by
  cases src with
  | nil => simp [read_cmd, read_byte] at h
  | cons b s1 =>
    simp only [read_cmd, read_byte, List.cons_append] at h ⊢
    by_cases hff : b = 0xFF
    · rw [if_pos hff] at h ⊢
      injection h with h
      injection h with hc hrest
      subst hc
      subst hrest
      rfl
    · rw [if_neg hff] at h ⊢
      by_cases h7 : b / 32 = 7
      · rw [if_pos h7] at h ⊢
        cases s1 with
        | nil => simp [read_byte] at h
        | cons n s2 =>
          simp only [read_byte, List.cons_append] at h ⊢
          exact readBody_extend _ _ s2 ext rest c h
      · rw [if_neg h7] at h ⊢
        exact readBody_extend _ _ s1 ext rest c h

lemma decompressLoop_extend : ∀ (f : Nat) (src ext dst d : List Nat),
    decompressLoop f src dst = .ok d → decompressLoop f (src ++ ext) dst = .ok d
  | 0, src, ext, dst, d => fun h => by simp [decompressLoop] at h
  | f+1, src, ext, dst, d => fun h => by
    rw [decompressLoop] at h
    rcases hr : read_cmd src with e | ⟨c, rest⟩
    · rw [hr] at h
      simp at h
    · rw [hr] at h
      have hr2 := read_cmd_extend src ext rest c hr
      rw [decompressLoop, hr2]
      cases c with
      | stop => exact h
      | copy data => exact decompressLoop_extend f rest ext _ d h
      | byteFill d2 len => exact decompressLoop_extend f rest ext _ d h
      | wordFill w len => exact decompressLoop_extend f rest ext _ d h
      | incrementing st len => exact decompressLoop_extend f rest ext _ d h
      | backreference ref inv len =>
        simp only [applyCommand] at h ⊢
        rcases ha : applyBackref dst ref inv len with e2 | dst2
        · rw [ha] at h
          simp at h
        · rw [ha] at h
          exact decompressLoop_extend f rest ext dst2 d h

/-! ### Correctness of the compression loop -/

lemma find_best_ne_stop (src : List Nat) (i : Nat) :
    find_best src i ≠ Command.stop := by
  rcases get_candidates_mem_cases src i _ (find_best_mem src i) with ⟨h, _⟩ | h | h | h
  · rw [h]
    simp [wordFillCand]
  · rw [h]
    simp [byteFillCand]
  · rw [h]
    simp [incrementingCand]
  · rcases find_best_backreference_spec src i with hn | ⟨j, _, _, heq, _⟩ |
      ⟨j, _, _, heq, _⟩
    · rw [hn] at h
      exact absurd h (by simp)
    · rw [heq] at h
      injection h with h
      rw [← h]
      simp
    · rw [heq] at h
      injection h with h
      rw [← h]
      simp

lemma compressLoop_shape : ∀ (f : Nat) (src : List Nat) (i : Nat) (pc dst out : List Nat),
    compressLoop f src i pc dst = some out → ∃ e, out = dst ++ e
  | 0, src, i, pc, dst, out => fun h => by simp [compressLoop] at h
  | f+1, src, i, pc, dst, out => fun h => by
    rw [compressLoop] at h
    split at h
    · split at h
      · split at h
        · simp at h
        · rename_i dst1 hflush
          split at h
          · simp at h
          · rename_i dst2 hwb
            obtain ⟨e2, he2⟩ := compressLoop_shape f src _ [] dst2 out h
            obtain ⟨eb, hwb0, rfl⟩ := write_some_shape _ _ _ hwb
            by_cases hpc : pc = []
            · rw [if_pos hpc] at hflush
              injection hflush with hflush
              subst hflush
              exact ⟨eb ++ e2, by rw [he2, List.append_assoc]⟩
            · rw [if_neg hpc] at hflush
              obtain ⟨ec, hwc0, rfl⟩ := write_some_shape _ _ _ hflush
              refine ⟨ec ++ (eb ++ e2), ?_⟩
              rw [he2]
              simp [List.append_assoc]
      · exact compressLoop_shape f src _ _ dst out h
    · split at h
      · simp at h
      · rename_i dst1 hflush
        rw [write_stop] at h
        injection h with h
        by_cases hpc : pc = []
        · rw [if_pos hpc] at hflush
          injection hflush with hflush
          subst hflush
          exact ⟨[0xFF], h.symm⟩
        · rw [if_neg hpc] at hflush
          obtain ⟨ec, hwc0, rfl⟩ := write_some_shape _ _ _ hflush
          refine ⟨ec ++ [0xFF], ?_⟩
          rw [← h, List.append_assoc]

lemma take_prevCopy_append (src : List Nat) (i0 n : Nat) (h : i0 + n ≤ src.length) :
    src.take i0 ++ (src.drop i0).take n = src.take (i0 + n) :=
  (List.take_add src i0 n).symm

/-- Main invariant of the compression loop: if the loop, started at position
`i` with pending literals `pc` covering `src[i-|pc| .. i)`, returns
successfully having appended `e` to `dst`, then decoding `e` starting from
the already-reconstructed output `src.take (i - |pc|)` reproduces all of
`src`. -/
lemma compressLoop_correct : ∀ (f : Nat) (src : List Nat) (i : Nat) (pc dst out : List Nat),
    (∀ b ∈ src, b < 256) →
    i ≤ src.length →
    pc.length ≤ i →
    pc = (src.drop (i - pc.length)).take pc.length →
    compressLoop f src i pc dst = some out →
    ∀ e, out = dst ++ e →
    ∀ df, e.length < df →
    decompressLoop df e (src.take (i - pc.length)) = .ok src
  | 0, src, i, pc, dst, out => fun _ _ _ _ h => by simp [compressLoop] at h
  | f+1, src, i, pc, dst, out => fun hb hi hpci hpceq h e he df hdf => by
    rw [compressLoop] at h
    split at h
    · rename_i hilt
      split at h
      · rename_i hprof
        split at h
        · simp at h
        · rename_i dst1 hflush
          split at h
          · simp at h
          · rename_i dst2 hwb
            obtain ⟨eb, hwb0, hdst2⟩ := write_some_shape _ _ _ hwb
            obtain ⟨hL1, hLle, hwf, happ⟩ := find_best_sound src i hilt hb
            obtain ⟨e2, he2⟩ := compressLoop_shape f src _ [] dst2 out h
            have hih := compressLoop_correct f src (i + (find_best src i).len) [] dst2 out
              hb (by omega) (by simp) (by simp) h e2 he2
            simp only [List.length_nil, Nat.sub_zero] at hih
            have hbpos : 0 < eb.length := write_nil_pos _ _ hwb0
            have hnstop := find_best_ne_stop src i
            by_cases hpc : pc = []
            · subst hpc
              rw [if_pos rfl] at hflush
              injection hflush with hflush
              subst hflush
              have he' : e = eb ++ e2 := by
                apply @List.append_cancel_left _ dst
                rw [← he, he2, hdst2, List.append_assoc]
              subst he'
              simp only [List.length_nil, Nat.sub_zero]
              obtain ⟨df', rfl⟩ : ∃ df', df = df' + 1 := ⟨df - 1, by omega⟩
              refine decompressLoop_cons df' (eb ++ e2) e2 (src.take i) _ src
                (find_best src i) hnstop (write_decode _ _ hwf hwb0 e2) happ ?_
              apply hih df'
              rw [List.length_append] at hdf
              omega
            · rw [if_neg hpc] at hflush
              obtain ⟨ec, hwc0, hdst1⟩ := write_some_shape _ _ _ hflush
              have hcpos : 0 < ec.length := write_nil_pos _ _ hwc0
              have he' : e = ec ++ (eb ++ e2) := by
                apply @List.append_cancel_left _ dst
                rw [← he, he2, hdst2, hdst1]
                simp [List.append_assoc]
              subst he'
              obtain ⟨df', rfl⟩ : ∃ df', df = df' + 1 + 1 := ⟨df - 2, by
                simp only [List.length_append] at hdf
                omega⟩
              have hcover : src.take (i - pc.length) ++ pc = src.take i := by
                conv_rhs => rw [(by omega : i = (i - pc.length) + pc.length)]
                rw [← take_prevCopy_append src (i - pc.length) pc.length (by omega)]
                rw [← hpceq]
              refine decompressLoop_cons (df' + 1) (ec ++ (eb ++ e2)) (eb ++ e2)
                (src.take (i - pc.length)) (src.take i) src (.copy pc) (by simp)
                (write_decode (.copy pc) ec (by trivial) hwc0 (eb ++ e2)) (by
                  show Except.ok (src.take (i - pc.length) ++ pc) = _
                  rw [hcover]) ?_
              refine decompressLoop_cons df' (eb ++ e2) e2 (src.take i) _ src
                (find_best src i) hnstop (write_decode _ _ hwf hwb0 e2) happ ?_
              apply hih df'
              simp only [List.length_append] at hdf
              omega
      · rename_i hprof
        have hpc1 : (pc ++ [src.getD i 0]).length = pc.length + 1 := by simp
        have hih := compressLoop_correct f src (i + 1) (pc ++ [src.getD i 0]) dst out
          hb (by omega) (by omega) ?_ h e he df hdf
        · have : i + 1 - (pc ++ [src.getD i 0]).length = i - pc.length := by
            rw [hpc1]
            omega
          rw [this] at hih
          exact hih
        · rw [hpc1]
          have hi0 : i + 1 - (pc.length + 1) = i - pc.length := by omega
          rw [hi0]
          have hlt : pc.length < (src.drop (i - pc.length)).length := by
            simp only [List.length_drop]
            omega
          rw [take_succ_getD (src.drop (i - pc.length)) pc.length hlt, ← hpceq,
            getD_drop]
          rw [(by omega : i - pc.length + pc.length = i)]
    · rename_i hige
      have hieq : i = src.length := by omega
      split at h
      · simp at h
      · rename_i dst1 hflush
        rw [write_stop] at h
        injection h with h
        by_cases hpc : pc = []
        · subst hpc
          rw [if_pos rfl] at hflush
          injection hflush with hflush
          subst hflush
          have he' : e = [0xFF] := by
            apply @List.append_cancel_left _ dst
            rw [← he, ← h]
          subst he'
          obtain ⟨df', rfl⟩ : ∃ df', df = df' + 1 := ⟨df - 1, by omega⟩
          simp only [List.length_nil, Nat.sub_zero, hieq, List.take_length]
          exact decompressLoop_stop df' [] src
        · rw [if_neg hpc] at hflush
          obtain ⟨ec, hwc0, hdst1⟩ := write_some_shape _ _ _ hflush
          have hcpos : 0 < ec.length := write_nil_pos _ _ hwc0
          have he' : e = ec ++ [0xFF] := by
            apply @List.append_cancel_left _ dst
            rw [← he, ← h, hdst1, List.append_assoc]
          subst he'
          obtain ⟨df', rfl⟩ : ∃ df', df = df' + 1 + 1 := ⟨df - 2, by
            simp only [List.length_append, List.length_cons, List.length_nil] at hdf
            omega⟩
          obtain ⟨i0, hi0⟩ : ∃ i0, i - pc.length = i0 := ⟨_, rfl⟩
          rw [hi0] at hpceq ⊢
          have hlen2 : pc.length = (src.drop i0).length := by
            simp only [List.length_drop]
            omega
          have hpcfull : src.drop i0 = pc := by
            have h3 : (src.drop i0).take pc.length = pc := hpceq.symm
            rw [hlen2, List.take_length] at h3
            exact h3
          have hcover : src.take i0 ++ pc = src := by
            rw [← hpcfull, List.take_append_drop]
          refine decompressLoop_cons (df' + 1) (ec ++ [0xFF]) [0xFF]
            (src.take i0) src src (.copy pc) (by simp)
            (write_decode (.copy pc) ec (by trivial) hwc0 [0xFF]) (by
              show Except.ok (src.take i0 ++ pc) = _
              rw [hcover]) ?_
          exact decompressLoop_stop df' [] src

/-- Round-trip correctness on the inputs where the compressor does not
panic: whatever compress returns decodes back to the original data. -/
lemma compress_roundtrip (x out : List Nat) (hb : ∀ b ∈ x, b < 256)
    (h : compress x = some out) : decompress out = .ok x := by
  unfold compress at h
  have hmain := compressLoop_correct (x.length + 1) x 0 [] [] out hb
    (Nat.zero_le _) (by simp) (by simp) h out (List.nil_append out).symm
    (out.length + 1) (by omega)
  simp only [List.length_nil, Nat.sub_zero, List.take_zero] at hmain
  unfold decompress
  exact hmain

/-! ### An incompressible input on which the compressor panics

The 1025-byte sequence `g 0, g 1, ..., g 1024` has no repeated byte pair,
no byte run of length 3, and (almost) no incrementing run of length 2, so
the greedy loop takes the literal path at every position; the final flush
then writes a Copy block of 1025 bytes, and `_write` hits
`assert!(len < Command::MAX_LEN)`. -/

def g (k : Nat) : Nat := if k % 2 = 0 then 128 + k / 2 % 128 else k / 2 / 128

def badInput : List Nat := (List.range 1025).map g

lemma g_lt (k : Nat) (hk : k ≤ 1025) : g k < 256 := by
  unfold g
  split <;> omega

lemma badInput_length : badInput.length = 1025 := by simp [badInput]

lemma badInput_getD (k : Nat) (hk : k < 1025) : badInput.getD k 0 = g k := by
  simp [badInput, List.getD_eq_getElem?_getD, List.getElem?_map, List.getElem?_range hk]

lemma badInput_bytes : ∀ b ∈ badInput, b < 256 := by
  intro b hbmem
  simp only [badInput, List.mem_map, List.mem_range] at hbmem
  obtain ⟨k, hk, rfl⟩ := hbmem
  exact g_lt k (by omega)

lemma g_pair_distinct (i j : Nat) (hij : j < i) (hi : i ≤ 1023) :
    ¬(g i = g j ∧ g (i + 1) = g (j + 1)) := by
  rintro ⟨e1, e2⟩
  unfold g at e1 e2
  by_cases hpi : i % 2 = 0 <;> by_cases hpj : j % 2 = 0
  · rw [if_pos hpi, if_pos hpj] at e1
    rw [if_neg (by omega), if_neg (by omega)] at e2
    omega
  · rw [if_pos hpi, if_neg hpj] at e1
    omega
  · rw [if_neg hpi, if_pos hpj] at e1
    omega
  · rw [if_neg hpi, if_neg hpj] at e1
    rw [if_pos (by omega), if_pos (by omega)] at e2
    omega

lemma badInput_matchLen_le (i j : Nat) (hij : j < i) (hi : i ≤ 1024) :
    matchLen (badInput.drop i) (badInput.drop j) ≤ 1 := by
  by_contra hcon
  push_neg at hcon
  have hlen : 2 ≤ (badInput.drop i).length :=
    le_trans hcon (matchLen_le_left _ _)
  rw [List.length_drop, badInput_length] at hlen
  have h0 := matchLen_getD (badInput.drop i) (badInput.drop j) 0 (by omega)
  have h1 := matchLen_getD (badInput.drop i) (badInput.drop j) 1 (by omega)
  rw [getD_drop, getD_drop, Nat.add_zero, Nat.add_zero] at h0
  rw [getD_drop, getD_drop] at h1
  rw [badInput_getD i (by omega), badInput_getD j (by omega)] at h0
  rw [badInput_getD (i + 1) (by omega), badInput_getD (j + 1) (by omega)] at h1
  exact g_pair_distinct i j hij (by omega) ⟨h0, h1⟩

lemma badInput_byte_run (i : Nat) (hi : i < 1025) :
    ((badInput.drop i).takeWhile
      (fun x => x = (badInput.drop i).getD 0 0)).length ≤ 2 := by
  by_contra h
  push_neg at h
  have hlen : 3 ≤ (badInput.drop i).length := le_trans h (takeWhile_length_le _ _)
  rw [List.length_drop, badInput_length] at hlen
  have h1 := takeWhile_getD (fun x => x = (badInput.drop i).getD 0 0)
    (badInput.drop i) 1 (by omega)
  have h2 := takeWhile_getD (fun x => x = (badInput.drop i).getD 0 0)
    (badInput.drop i) 2 (by omega)
  simp only [decide_eq_true_eq] at h1 h2
  simp only [getD_drop, Nat.add_zero] at h1 h2
  rw [badInput_getD (i + 1) (by omega), badInput_getD i (by omega)] at h1
  rw [badInput_getD (i + 2) (by omega), badInput_getD i (by omega)] at h2
  exact g_pair_distinct (i + 1) i (by omega) (by omega) ⟨h1, by rw [h2, h1]⟩

lemma badInput_word_run (i : Nat) (hi : i < 1025) :
    wordRunLen ((badInput.drop i).getD 0 0) ((badInput.drop i).getD 1 0)
      (badInput.drop i) ≤ 2 := by
  by_contra h
  push_neg at h
  have heven := wordRunLen_even ((badInput.drop i).getD 0 0)
    ((badInput.drop i).getD 1 0) (badInput.drop i)
  have h4 : 4 ≤ wordRunLen ((badInput.drop i).getD 0 0) ((badInput.drop i).getD 1 0)
      (badInput.drop i) := by omega
  have hlen : 4 ≤ (badInput.drop i).length := le_trans h4 (wordRunLen_le _ _ _)
  rw [List.length_drop, badInput_length] at hlen
  have h2 := wordRunLen_getD ((badInput.drop i).getD 0 0) ((badInput.drop i).getD 1 0)
    (badInput.drop i) 2 (by omega)
  have h3 := wordRunLen_getD ((badInput.drop i).getD 0 0) ((badInput.drop i).getD 1 0)
    (badInput.drop i) 3 (by omega)
  rw [if_pos (by decide : (2 : Nat) % 2 = 0)] at h2
  rw [if_neg (by decide : ¬((3 : Nat) % 2 = 0))] at h3
  simp only [getD_drop, Nat.add_zero] at h2 h3
  rw [badInput_getD (i + 2) (by omega), badInput_getD i (by omega)] at h2
  rw [badInput_getD (i + 3) (by omega), badInput_getD (i + 1) (by omega)] at h3
  refine g_pair_distinct (i + 2) i (by omega) (by omega) ⟨h2, ?_⟩
  rw [(by omega : i + 2 + 1 = i + 3), h3]

lemma badInput_inc_run (i : Nat) (hi : i < 1025) :
    incRunLen ((badInput.drop i).getD 0 0) (badInput.drop i) ≤ 2 := by
  by_contra h
  push_neg at h
  have hlen : 3 ≤ (badInput.drop i).length := le_trans h (incRunLen_le _ _)
  rw [List.length_drop, badInput_length] at hlen
  have hlo : (badInput.drop i).getD 0 0 = g i := by
    rw [getD_drop, Nat.add_zero, badInput_getD i (by omega)]
  have hslt : g i < 256 := g_lt i (by omega)
  have h1 := incRunLen_getD ((badInput.drop i).getD 0 0) (badInput.drop i) 1
    (by rw [hlo]; exact hslt) (by omega)
  have h2 := incRunLen_getD ((badInput.drop i).getD 0 0) (badInput.drop i) 2
    (by rw [hlo]; exact hslt) (by omega)
  rw [getD_drop, hlo, badInput_getD (i + 1) (by omega)] at h1
  rw [getD_drop, hlo, badInput_getD (i + 2) (by omega)] at h2
  unfold g at h1 h2
  by_cases hpi : i % 2 = 0
  · rw [if_neg (by omega)] at h1
    rw [if_pos hpi] at h1
    rw [if_pos (by omega)] at h2
    rw [if_pos hpi] at h2
    omega
  · rw [if_pos (by omega)] at h1
    rw [if_neg hpi] at h1
    omega

lemma cost_ge_two (c : Command) (hc : ∀ data, c ≠ Command.copy data)
    (hs : c ≠ Command.stop) : 2 ≤ c.cost := by
  cases c with
  | copy data => exact absurd rfl (hc data)
  | stop => exact absurd rfl hs
  | byteFill d len => simp only [Command.cost, Command.len]; split <;> omega
  | wordFill w len => simp only [Command.cost, Command.len]; split <;> omega
  | incrementing s len => simp only [Command.cost, Command.len]; split <;> omega
  | backreference ref inv len =>
    cases ref <;> simp only [Command.cost, Command.len] <;> split <;> omega

lemma badInput_candidates_small (i : Nat) (hi : i < 1025) (c : Command)
    (hc : c ∈ get_candidates badInput i) : c.len ≤ 3 ∧ 2 ≤ c.cost := by
  have hML : MAX_LEN = 1024 := rfl
  rcases get_candidates_mem_cases _ _ c hc with ⟨rfl, h2⟩ | rfl | rfl | hf
  · have hrun := badInput_word_run i hi
    constructor
    · simp only [wordFillCand, Command.len]
      split <;> omega
    · apply cost_ge_two
      · intro data
        simp [wordFillCand]
      · simp [wordFillCand]
  · have hrun := badInput_byte_run i hi
    constructor
    · simp only [byteFillCand, Command.len]
      omega
    · apply cost_ge_two
      · intro data
        simp [byteFillCand]
      · simp [byteFillCand]
  · have hrun := badInput_inc_run i hi
    constructor
    · simp only [incrementingCand, Command.len]
      omega
    · apply cost_ge_two
      · intro data
        simp [incrementingCand]
      · simp [incrementingCand]
  · rcases find_best_backreference_spec badInput i with hn | ⟨j, hj1, hj2, heq, hpos⟩ |
      ⟨j, hj1, hj2, heq, hpos⟩
    · rw [hn] at hf
      exact absurd hf (by simp)
    · rw [heq] at hf
      injection hf with hf
      subst hf
      have hml := badInput_matchLen_le i j hj2 (by omega)
      constructor
      · simp only [Command.len]
        omega
      · apply cost_ge_two <;> simp
    · rw [heq] at hf
      injection hf with hf
      subst hf
      have hml := badInput_matchLen_le i j (by omega) (by omega)
      constructor
      · simp only [Command.len]
        omega
      · apply cost_ge_two <;> simp

lemma badInput_literal (i : Nat) (hi : i < 1025) :
    ¬((find_best badInput i).cost + 3 ≤ (find_best badInput i).len) := by
  have hsmall := badInput_candidates_small i hi _ (find_best_mem badInput i)
  omega

lemma compressLoop_badInput : ∀ (k i : Nat) (pc dst : List Nat), i + k = 1025 →
    compressLoop (k + 1) badInput i pc dst =
      (match (if pc ++ badInput.drop i = [] then some dst
              else Command.write (.copy (pc ++ badInput.drop i)) dst) with
       | none => none
       | some dst1 => Command.write Command.stop dst1)
  | 0, i, pc, dst => fun hik => by
    rw [compressLoop]
    rw [if_neg (by rw [badInput_length]; omega)]
    have hdrop : badInput.drop i = [] := by
      have : i = badInput.length := by rw [badInput_length]; omega
      rw [this, List.drop_length]
    rw [hdrop, List.append_nil]
  | k+1, i, pc, dst => fun hik => by
    rw [compressLoop]
    rw [if_pos (by rw [badInput_length]; omega)]
    rw [if_neg (badInput_literal i (by omega))]
    rw [compressLoop_badInput k (i + 1) (pc ++ [badInput.getD i 0]) dst (by omega)]
    have hdrop : badInput.drop i = badInput.getD i 0 :: badInput.drop (i + 1) :=
      drop_cons badInput i (by rw [badInput_length]; omega)
    rw [hdrop, List.append_assoc, List.singleton_append]

/-- The compressor panics on badInput: every position takes the literal
path, so the final flush tries to write a 1025-byte Copy block and the
`assert!(len < Command::MAX_LEN)` in `_write` fails. -/
lemma compress_badInput_eq_none : compress badInput = none := by
  unfold compress
  rw [badInput_length]
  rw [compressLoop_badInput 1025 0 [] [] rfl]
  rw [List.drop_zero, List.nil_append]
  rw [if_neg (List.ne_nil_of_length_pos (by rw [badInput_length]; omega))]
  have hw : Command.write (.copy badInput) [] = none := by
    simp only [Command.write]
    rw [badInput_length, writeRaw_eq]
    rw [if_neg (by omega), if_neg (by norm_num), if_neg (by norm_num [MAX_LEN])]
    rfl
  rw [hw]

/-! ### Characterization of the decoder errors -/

/-- Number of payload bytes following the header, per command id
(the variant payload table of read_cmd). -/
def payloadSize (c len : Nat) : Nat :=
  if c = 0 then len
  else if c = 1 then 1
  else if c = 2 then 2
  else if c = 3 then 1
  else if c < 6 then 2
  else 1

/-- Total number of input bytes (header plus payload) occupied by the block
at the head of the input, judged from its header; `none` when the input
ends in the middle of the header itself. -/
def blockSize : List Nat → Option Nat
  | [] => none
  | h :: rest =>
    if h = 0xFF then some 1
    else if h / 32 = 7 then
      match rest with
      | [] => none
      | n :: _ => some (2 + payloadSize ((h % 32) / 4) ((h % 32) % 4 * 256 + n + 1))
    else some (1 + payloadSize (h / 32) (h % 32 + 1))

/-- The windowing condition under which a backreference errors: a Relative
offset exceeding the current output length, or a resolved start position
not strictly below the current output length. -/
def windowBad (dst : List Nat) : Reference → Prop
  | .relative o => dst.length < o ∨ dst.length ≤ dst.length - o
  | .absolute a => dst.length ≤ a

lemma readBody_error_eof (cmd len : Nat) (s2 : List Nat) (e : DecompressionError)
    (h : readBody cmd len s2 = .error e) : e = .unexpectedEof := by
  by_cases h0 : cmd = 0
  · subst h0
    rw [readBody_zero_eq] at h
    split at h
    · injection h with h
      exact h.symm
    · exact absurd h (by simp)
  by_cases h1 : cmd = 1
  · subst h1
    rw [readBody_one_eq] at h
    cases s2 with
    | nil => injection h with h; exact h.symm
    | cons b s3 => exact absurd h (by simp [read_byte])
  by_cases h2 : cmd = 2
  · subst h2
    rw [readBody_two_eq] at h
    match s2 with
    | [] => injection h with h; exact h.symm
    | [x] => injection h with h; exact h.symm
    | x :: y :: s3 => exact absurd h (by simp [read_word, read_byte])
  by_cases h3 : cmd = 3
  · subst h3
    rw [readBody_three_eq] at h
    cases s2 with
    | nil => injection h with h; exact h.symm
    | cons b s3 => exact absurd h (by simp [read_byte])
  by_cases h4 : cmd = 4
  · subst h4
    rw [readBody_four_eq] at h
    match s2 with
    | [] => injection h with h; exact h.symm
    | [x] => injection h with h; exact h.symm
    | x :: y :: s3 => exact absurd h (by simp [read_word, read_byte])
  by_cases h5 : cmd = 5
  · subst h5
    rw [readBody_five_eq] at h
    match s2 with
    | [] => injection h with h; exact h.symm
    | [x] => injection h with h; exact h.symm
    | x :: y :: s3 => exact absurd h (by simp [read_word, read_byte])
  by_cases h6 : cmd = 6
  · subst h6
    rw [readBody_six_eq] at h
    cases s2 with
    | nil => injection h with h; exact h.symm
    | cons b s3 => exact absurd h (by simp [read_byte])
  by_cases h7 : cmd = 7
  · subst h7
    rw [readBody_seven_eq] at h
    cases s2 with
    | nil => injection h with h; exact h.symm
    | cons b s3 => exact absurd h (by simp [read_byte])
  rw [readBody_ge_eight_eq cmd len s2 (by omega)] at h
  injection h with h
  exact h.symm

lemma read_cmd_error_eof (src : List Nat) (e : DecompressionError)
    (h : read_cmd src = .error e) : e = .unexpectedEof := by
  cases src with
  | nil =>
    simp only [read_cmd, read_byte] at h
    injection h with h
    exact h.symm
  | cons b s1 =>
    simp only [read_cmd, read_byte] at h
    by_cases hff : b = 0xFF
    · rw [if_pos hff] at h
      exact absurd h (by simp)
    · rw [if_neg hff] at h
      by_cases h7 : b / 32 = 7
      · rw [if_pos h7] at h
        cases s1 with
        | nil =>
          simp only [read_byte] at h
          injection h with h
          exact h.symm
        | cons n s2 =>
          simp only [read_byte] at h
          exact readBody_error_eof _ _ s2 e h
      · rw [if_neg h7] at h
        exact readBody_error_eof _ _ s1 e h

lemma readBody_error_iff (cmd len : Nat) (s2 : List Nat) (hc : cmd ≤ 7) :
    (∃ e, readBody cmd len s2 = .error e) ↔ s2.length < payloadSize cmd len := by
  by_cases h0 : cmd = 0
  · subst h0
    rw [readBody_zero_eq]
    simp only [payloadSize, if_pos rfl]
    split
    · simp_all
    · rename_i hlen
      simp_all
  by_cases h1 : cmd = 1
  · subst h1
    rw [readBody_one_eq]
    simp only [payloadSize]
    norm_num
    cases s2 with
    | nil => simp [read_byte]
    | cons b s3 => simp [read_byte]
  by_cases h2 : cmd = 2
  · subst h2
    rw [readBody_two_eq]
    simp only [payloadSize]
    norm_num
    match s2 with
    | [] => simp [read_word, read_byte]
    | [x] => simp [read_word, read_byte]
    | x :: y :: s3 => simp [read_word, read_byte]
  by_cases h3 : cmd = 3
  · subst h3
    rw [readBody_three_eq]
    simp only [payloadSize]
    norm_num
    cases s2 with
    | nil => simp [read_byte]
    | cons b s3 => simp [read_byte]
  have hps : payloadSize cmd len = if cmd < 6 then 2 else 1 := by
    simp only [payloadSize, if_neg h0, if_neg h1, if_neg h2, if_neg h3]
  by_cases h4 : cmd = 4
  · subst h4
    rw [readBody_four_eq, hps]
    norm_num
    match s2 with
    | [] => simp [read_word, read_byte]
    | [x] => simp [read_word, read_byte]
    | x :: y :: s3 => simp [read_word, read_byte]
  by_cases h5 : cmd = 5
  · subst h5
    rw [readBody_five_eq, hps]
    norm_num
    match s2 with
    | [] => simp [read_word, read_byte]
    | [x] => simp [read_word, read_byte]
    | x :: y :: s3 => simp [read_word, read_byte]
  by_cases h6 : cmd = 6
  · subst h6
    rw [readBody_six_eq, hps]
    norm_num
    cases s2 with
    | nil => simp [read_byte]
    | cons b s3 => simp [read_byte]
  have h7 : cmd = 7 := by omega
  subst h7
  rw [readBody_seven_eq, hps]
  norm_num
  cases s2 with
  | nil => simp [read_byte]
  | cons b s3 => simp [read_byte]

lemma read_cmd_error_iff (src : List Nat) (hb : ∀ b ∈ src, b < 256) :
    (∃ e, read_cmd src = .error e) ↔
      (blockSize src = none ∨ ∃ n, blockSize src = some n ∧ src.length < n) := by
  cases src with
  | nil =>
    simp only [read_cmd, read_byte, blockSize]
    simp
  | cons b s1 =>
    have hblt : b < 256 := hb b (by simp)
    simp only [read_cmd, read_byte, blockSize]
    by_cases hff : b = 0xFF
    · rw [if_pos hff, if_pos hff]
      simp
    · rw [if_neg hff, if_neg hff]
      by_cases h7 : b / 32 = 7
      · rw [if_pos h7, if_pos h7]
        cases s1 with
        | nil =>
          simp only [read_byte]
          simp
        | cons n s2 =>
          simp only [read_byte]
          have hiff := readBody_error_iff ((b % 32) / 4) ((b % 32) % 4 * 256 + n + 1) s2
            (by omega)
          rw [hiff]
          simp only [List.length_cons, Option.some.injEq]
          constructor
          · intro hlt
            exact Or.inr ⟨_, rfl, by omega⟩
          · rintro (h | ⟨m, hm, hlt⟩)
            · exact absurd h (by simp)
            · omega
      · rw [if_neg h7, if_neg h7]
        have hiff := readBody_error_iff (b / 32) (b % 32 + 1) s1 (by omega)
        rw [hiff]
        simp only [List.length_cons, Option.some.injEq]
        constructor
        · intro hlt
          exact Or.inr ⟨_, rfl, by omega⟩
        · rintro (h | ⟨m, hm, hlt⟩)
          · exact absurd h (by simp)
          · omega

lemma applyBackref_error_iff (dst : List Nat) (ref : Reference) (inv : Bool) (len : Nat) :
    ((∃ e, applyBackref dst ref inv len = .error e) ↔ windowBad dst ref) ∧
    (∀ e, applyBackref dst ref inv len = .error e → e = .windowOutOfRange) := by
  cases ref with
  | absolute a =>
    simp only [applyBackref, windowBad]
    split
    · simp_all
    · rename_i hlt
      constructor
      · simp_all
      · intro e he
        exact absurd he (by simp)
  | relative o =>
    simp only [applyBackref, windowBad]
    by_cases ho : o ≤ dst.length
    · rw [if_pos ho]
      simp only
      split
      · rename_i hge
        constructor
        · constructor
          · intro _
            right
            exact hge
          · intro _
            exact ⟨.windowOutOfRange, rfl⟩
        · intro e he
          injection he with he
          exact he.symm
      · rename_i hge
        constructor
        · constructor
          · rintro ⟨e, he⟩
            exact absurd he (by simp)
          · intro hbad
            rcases hbad with hlt | hle
            · omega
            · omega
        · intro e he
          exact absurd he (by simp)
    · rw [if_neg ho]
      simp only
      constructor
      · constructor
        · intro _
          left
          omega
        · intro _
          exact ⟨.windowOutOfRange, rfl⟩
      · intro e he
        injection he with he
        exact he.symm

/-! ### Cyclic behaviour of overlapping relative backreferences -/

lemma getD_append_left (l1 l2 : List Nat) (k : Nat) (h : k < l1.length) :
    (l1 ++ l2).getD k 0 = l1.getD k 0 := by
  simp [List.getD_eq_getElem?_getD, List.getElem?_append, h]

lemma getD_append_right (l1 l2 : List Nat) (k : Nat) :
    (l1 ++ l2).getD (l1.length + k) 0 = l2.getD k 0 := by
  rw [List.getD_eq_getElem?_getD, List.getElem?_append_right (by omega)]
  simp [List.getD_eq_getElem?_getD]

lemma range_map_getD (f : Nat → Nat) (n k : Nat) (h : k < n) :
    (((List.range n).map f)).getD k 0 = f k := by
  simp [List.getD_eq_getElem?_getD, List.getElem?_map, List.getElem?_range h]

lemma backrefStep_cyclic (d : List Nat) (o : Nat) (ho1 : 1 ≤ o) (ho2 : o ≤ d.length) :
    ∀ (n t : Nat),
    backrefStep false (d.length - o + t) n
        (d ++ (List.range t).map (fun k => d.getD (d.length - o + k % o) 0)) =
      d ++ (List.range (t + n)).map (fun k => d.getD (d.length - o + k % o) 0)
  | 0, t => by
    rw [backrefStep, Nat.add_zero]
  | n+1, t => by
    rw [backrefStep]
    have hbyte : (d ++ (List.range t).map (fun k => d.getD (d.length - o + k % o) 0)).getD
        (d.length - o + t) 0 = d.getD (d.length - o + t % o) 0 := by
      rcases Nat.lt_or_ge t o with hto | hto
      · rw [getD_append_left _ _ _ (by omega), Nat.mod_eq_of_lt hto]
      · have hidx : d.length - o + t = d.length + (t - o) := by omega
        rw [hidx, getD_append_right, range_map_getD _ _ _ (by omega)]
        congr 2
        conv_rhs => rw [(by omega : t = t - o + o), Nat.add_mod_right]
    have hmask : Nat.xor ((d ++ (List.range t).map
        (fun k => d.getD (d.length - o + k % o) 0)).getD (d.length - o + t) 0)
        (if (false : Bool) then 0xFF else 0) = d.getD (d.length - o + t % o) 0 := by
      rw [hbyte]
      show Nat.xor _ 0 = _
      exact Nat.xor_zero _
    rw [hmask]
    have happ : d ++ (List.range t).map (fun k => d.getD (d.length - o + k % o) 0) ++
        [d.getD (d.length - o + t % o) 0] =
        d ++ (List.range (t + 1)).map (fun k => d.getD (d.length - o + k % o) 0) := by
      rw [List.range_succ, List.map_append, List.append_assoc]
      rfl
    rw [happ]
    have ih := backrefStep_cyclic d o ho1 ho2 n (t + 1)
    rw [(by omega : d.length - o + t + 1 = d.length - o + (t + 1)), ih,
      (by omega : t + 1 + n = t + (n + 1))]

lemma compressLoop_last : ∀ (f : Nat) (src : List Nat) (i : Nat) (pc dst out : List Nat),
    compressLoop f src i pc dst = some out → out.getLast? = some 0xFF
  | 0, src, i, pc, dst, out => fun h => by simp [compressLoop] at h
  | f+1, src, i, pc, dst, out => fun h => by
    rw [compressLoop] at h
    split at h
    · split at h
      · split at h
        · simp at h
        · rename_i dst1 hflush
          split at h
          · simp at h
          · rename_i dst2 hwb
            exact compressLoop_last f src _ [] dst2 out h
      · exact compressLoop_last f src _ _ dst out h
    · split at h
      · simp at h
      · rename_i dst1 hflush
        rw [write_stop] at h
        injection h with h
        rw [← h]
        exact List.getLast?_concat dst1

/-! ### The claims -/

/-- Cost table as the specification's §4.3 table claims it (payload:
Copy → L, ByteFill → 1, WordFill → 2, Incrementing → 1, Absolute
backreference → 2, Relative backreference → 1 regardless of inversion;
header: 1 byte if L ≤ 32, else 2).  Modelled from the spec's words, for
comparison with the source's Command.cost. -/
def specClaimCost (c : Command) : Nat :=
  (if Command.len c ≤ 32 then 1 else 2) +
  (match c with
   | .copy data => data.length
   | .byteFill _ _ => 1
   | .wordFill _ _ => 2
   | .incrementing _ _ => 1
   | .backreference (.absolute _) _ _ => 2
   | .backreference (.relative _) _ _ => 1
   | .stop => 0)

/-- C1 (amended): for every byte sequence x on which compress returns
normally (it can panic, see C2), decompressing the compressed output
yields exactly x. -/
theorem C1_round_trip (x out : List Nat) (hb : ∀ b ∈ x, b < 256)
    (h : compress x = some out) : decompress out = Except.ok x :=
  compress_roundtrip x out hb h

/-- C1 counterexample: the round-trip claim as stated fails on the
concrete 1025-byte sequence badInput, because compress panics on it and
returns no output at all. -/
theorem C1_round_trip_counterexample :
    ¬ ∃ out, compress badInput = some out ∧ decompress out = Except.ok badInput := by
  rintro ⟨out, hc, _⟩
  rw [compress_badInput_eq_none] at hc
  exact absurd hc (by simp)

theorem C1_round_trip_witness :
    (∀ b ∈ ([7] : List Nat), b < 256) ∧ compress [7] = some [0x00, 7, 0xFF] ∧
      decompress [0x00, 7, 0xFF] = Except.ok [7] :=
  ⟨by decide, by decide, C1_round_trip [7] [0x00, 7, 0xFF] (by decide) (by decide)⟩

/-- C2: the compressor is claimed never to fail and to encode no block of
expanded length above MAX_LEN; in fact on badInput (1025 incompressible
bytes) every position takes the literal path, the final flush writes a
1025-byte Copy block, and the `assert!(len < Command::MAX_LEN)` in
`_write` panics (modelled as `none`). -/
theorem C2_compress_panics : compress badInput = none :=
  compress_badInput_eq_none

/-- C3: on the test input `[1,2,3,4, !1,!2,!3,!4, 1,2,3,4]` the compressor
is claimed (by the spec and by the repository's own test_compress) to emit
an Incrementing block, a long-form inverted Relative backreference and the
Stop byte, i.e. `[0x63, 0x01, 0xFC, 0x07, 0x04, 0xFF]`; the code instead
emits a single 12-byte Copy block, because backreference_at never reports
inverted matches and the tweaked cost table makes every candidate
unprofitable. -/
theorem C3_compress_inverted_example :
    compress [1, 2, 3, 4, 254, 253, 252, 251, 1, 2, 3, 4] =
      some [0x0B, 1, 2, 3, 4, 254, 253, 252, 251, 1, 2, 3, 4, 0xFF] := by
  decide

/-- C4 (amended): the encoder's cost is header bytes (1 if L ≤ 32, else 2)
plus payload-cost bytes Copy → L, ByteFill → 1, WordFill → 2,
Incrementing → 2, Relative backreference → 3, Absolute backreference → 4
(the tweaked table of this variant, independent of the invert flag). -/
theorem C4_cost_table : ∀ c : Command, c ≠ Command.stop →
    Command.cost c = (if Command.len c ≤ 32 then 1 else 2) +
      (match c with
       | .copy data => data.length
       | .byteFill _ _ => 1
       | .wordFill _ _ => 2
       | .incrementing _ _ => 2
       | .backreference (.relative _) _ _ => 3
       | .backreference (.absolute _) _ _ => 4
       | .stop => 0) := by
  intro c hc
  cases c with
  | copy data => simp only [Command.cost, Command.len]; split <;> omega
  | byteFill d len => simp only [Command.cost, Command.len]; split <;> omega
  | wordFill w len => simp only [Command.cost, Command.len]; split <;> omega
  | incrementing st len => simp only [Command.cost, Command.len]; split <;> omega
  | backreference ref inv len =>
    cases ref with
    | absolute a => simp only [Command.cost, Command.len]; split <;> omega
    | relative o => simp only [Command.cost, Command.len]; split <;> omega
  | stop => exact absurd rfl hc

/-- C4 counterexample: the cost table claimed by the spec (Incrementing
payload 1, Relative backreference payload 1, Absolute backreference
payload 2) disagrees with the code already on a length-1 Incrementing
block (code: 3, claim: 2). -/
theorem C4_cost_table_counterexample :
    Command.cost (Command.incrementing 0 1) ≠ specClaimCost (Command.incrementing 0 1) := by
  decide

theorem C4_cost_table_witness :
    Command.cost (Command.incrementing 5 40) =
      (if Command.len (Command.incrementing 5 40) ≤ 32 then 1 else 2) + 2 :=
  C4_cost_table (Command.incrementing 5 40) (by decide)

/-- C5: `compress [1,1,1,1]` is claimed (by the spec's §8 scenario 2 and by
the repository's own test_compress) to be the ByteFill encoding
`[0x23, 0x01, 0xFF]`; the code returns the Copy encoding
`[0x03, 1, 1, 1, 1, 0xFF]` because under the tweaked cost/threshold a
length-4 ByteFill (cost 2) does not save the required 3 bytes. -/
theorem C5_compress_bytefill_example :
    compress [1, 1, 1, 1] = some [0x03, 1, 1, 1, 1, 0xFF] := by
  decide

/-- C6: decompression errors are exactly as claimed: read_cmd fails with
UnexpectedEof precisely when the input ends mid-header or mid-payload
(src shorter than the block size announced by its header), and applying a
backreference fails with WindowOutOfRange precisely when a Relative
offset exceeds the current output length or the resolved start is not
strictly below the current output length; no other errors occur. -/
theorem C6_error_conditions : ∀ src : List Nat, (∀ b ∈ src, b < 256) →
    ((∀ e, read_cmd src = Except.error e → e = DecompressionError.unexpectedEof) ∧
     ((∃ e, read_cmd src = Except.error e) ↔
        (blockSize src = none ∨ ∃ n, blockSize src = some n ∧ src.length < n))) ∧
    ∀ (dst : List Nat) (ref : Reference) (inv : Bool) (len : Nat),
      ((∃ e, applyBackref dst ref inv len = Except.error e) ↔ windowBad dst ref) ∧
      (∀ e, applyBackref dst ref inv len = Except.error e →
        e = DecompressionError.windowOutOfRange) :=
  fun src hb =>
    ⟨⟨fun e he => read_cmd_error_eof src e he, read_cmd_error_iff src hb⟩,
     fun dst ref inv len =>
       ⟨(applyBackref_error_iff dst ref inv len).1,
        (applyBackref_error_iff dst ref inv len).2⟩⟩

theorem C6_error_conditions_witness :
    (∃ e, read_cmd [0x23] = Except.error e) ∧ windowBad [] (Reference.relative 1) :=
  ⟨((C6_error_conditions [0x23] (by decide)).1.2).mpr (Or.inr ⟨2, by decide, by decide⟩),
   (((C6_error_conditions [0x23] (by decide)).2 [] (Reference.relative 1) false 1).1).mp
     ⟨DecompressionError.windowOutOfRange, rfl⟩⟩

/-- C7: a non-inverted Relative backreference with offset o ≤ |d| and
length L > o, applied to a non-empty decoder output d, appends exactly L
bytes cyclically repeating the last o bytes of d: the k-th appended byte
is d[|d| − o + (k mod o)]. -/
theorem C7_overlap_copy (d : List Nat) (o L : Nat) (h0 : 0 < d.length) (h1 : 1 ≤ o)
    (h2 : o ≤ d.length) (h3 : o < L) :
    applyBackref d (.relative o) false L =
      .ok (d ++ (List.range L).map (fun k => d.getD (d.length - o + k % o) 0)) := by
  rw [applyBackref_relative_ok d o L false h2 (by omega)]
  have hcyc := backrefStep_cyclic d o h1 h2 L 0
  simp only [List.range_zero, List.map_nil, List.append_nil, Nat.add_zero,
    Nat.zero_add] at hcyc
  rw [hcyc]

theorem C7_overlap_copy_witness :
    applyBackref [9, 8] (.relative 2) false 5 =
      .ok ([9, 8] ++ (List.range 5).map
        (fun k => ([9, 8] : List Nat).getD (([9, 8] : List Nat).length - 2 + k % 2) 0)) :=
  C7_overlap_copy [9, 8] 2 5 (by decide) (by decide) (by decide) (by decide)

/-- C8: every output of compress ends with the Stop byte 0xFF, and the
empty input compresses to exactly [0xFF]. -/
theorem C8_stop_terminated :
    (∀ x out : List Nat, compress x = some out → out.getLast? = some 0xFF) ∧
      compress [] = some [0xFF] :=
  ⟨fun x out h => compressLoop_last (x.length + 1) x 0 [] [] out h, by decide⟩

theorem C8_stop_terminated_witness :
    compress [5, 5] = some [0x01, 5, 5, 0xFF] ∧
      ([0x01, 5, 5, 0xFF] : List Nat).getLast? = some 0xFF :=
  ⟨by decide, C8_stop_terminated.1 [5, 5] [0x01, 5, 5, 0xFF] (by decide)⟩

/-- C9: decoding halts at the first Stop byte and ignores everything after
it: appending any suffix to an input that decompresses successfully does
not change the result, and in particular `0xFF` followed by anything
decodes to the empty output. -/
theorem C9_decode_stops_at_stop :
    (∀ p s d : List Nat, decompress p = .ok d → decompress (p ++ s) = .ok d) ∧
      ∀ s : List Nat, decompress (0xFF :: s) = .ok [] := by
  constructor
  · intro p s d h
    unfold decompress at h ⊢
    have h2 := decompressLoop_extend (p.length + 1) p s [] d h
    exact decompressLoop_mono (p.length + 1) ((p ++ s).length + 1) (p ++ s) [] d
      (by rw [List.length_append]; omega) h2
  · intro s
    unfold decompress
    exact decompressLoop_stop (s.length + 1) s []

theorem C9_decode_stops_at_stop_witness :
    decompress [0xFF] = Except.ok [] ∧ decompress ([0xFF] ++ [0x63, 9]) = Except.ok [] :=
  ⟨rfl, C9_decode_stops_at_stop.1 [0xFF] [0x63, 9] [] rfl⟩

/-- C10: the compressor never chooses an inverted backreference: no
candidate produced by get_candidates, and hence no block selected by
find_best, is a Backreference with the invert flag set. -/
theorem C10_no_inverted_backreferences : ∀ (src : List Nat) (i : Nat),
    (∀ c ∈ get_candidates src i, ∀ ref len, c ≠ Command.backreference ref true len) ∧
    (∀ ref len, find_best src i ≠ Command.backreference ref true len) := by
  intro src i
  have hcand : ∀ c ∈ get_candidates src i, ∀ ref len,
      c ≠ Command.backreference ref true len := by
    intro c hc ref len heq
    rcases get_candidates_mem_cases src i c hc with ⟨rfl, _⟩ | rfl | rfl | hf
    · simp [wordFillCand] at heq
    · simp [byteFillCand] at heq
    · simp [incrementingCand] at heq
    · rcases find_best_backreference_spec src i with hn | ⟨j, _, _, hspec, _⟩ |
        ⟨j, _, _, hspec, _⟩
      · rw [hn] at hf
        exact absurd hf (by simp)
      · rw [hspec] at hf
        injection hf with hf
        rw [← hf] at heq
        simp at heq
      · rw [hspec] at hf
        injection hf with hf
        rw [← hf] at heq
        simp at heq
  exact ⟨hcand, fun ref len => hcand _ (find_best_mem src i) ref len⟩

theorem C10_no_inverted_backreferences_witness :
    Command.byteFill 1 4 ≠ Command.backreference (Reference.relative 1) true 1 :=
  (C10_no_inverted_backreferences [1, 1, 1, 1] 0).1 (Command.byteFill 1 4) (by decide)
    (Reference.relative 1) 1

end Lznint
